import Mathlib

/-!
Verification development for the Tradoor trade-ledger bot.

The repository contains three variants of the ledger:
* a per-lot FIFO ledger whose sells are given in shares
  (`src/unnamed/part_000`, `handleBuyCommand` / `handleSellCommand`);
* a per-lot FIFO ledger whose sells are given in dollar amounts
  (`src/unnamed/part_001`, same handlers, plus the mongoose `Trade`
  model with its `profit` virtual and `getOpenTradesForTicker`);
* a weighted-average-cost ledger (`src/api/index.js` together with the
  `Trade` model of `src/unnamed/part_002`).

The embedding below translates those handlers into pure Lean functions.
JavaScript numbers are modelled as rationals (`ℚ`), so every arithmetic
identity proved here is exact and in particular holds within the
floating tolerance the specification allows.  The MongoDB collection is
modelled as a list of documents carrying a numeric id; `save` on a
fetched document is modelled as replacement of the document with that
id, and an insert as an append.  Timestamps are modelled as naturals
supplied by the caller (`Date.now`).
-/

namespace Tradoor

/-- Trade status of the mongoose `Trade` schema (`src/unnamed/part_001`,
`status` field, enum `['open', 'closed']`). -/
inductive TradeStatus where
  | isOpen
  | closed
  deriving DecidableEq, Repr

/-- A document of the FIFO `Trade` collection (`src/unnamed/part_001`,
`tradeSchema`).  `id` models the MongoDB `_id`. -/
structure Trade where
  id : Nat
  ticker : String
  buy_price : ℚ
  quantity : ℚ
  buy_date : Nat
  sell_price : Option ℚ
  sell_date : Option Nat
  status : TradeStatus
  deriving DecidableEq, Repr

/-- The `profit` virtual of the FIFO `Trade` schema
(`src/unnamed/part_001` lines 485-491): `sell_price - buy_price` when
both are truthy (a JavaScript `0` is falsy), `null` otherwise.  Note it
does not multiply by `quantity`. -/
def profitVirtual (t : Trade) : Option ℚ :=
  match t.sell_price with
  | some sp => if sp ≠ 0 ∧ t.buy_price ≠ 0 then some (sp - t.buy_price) else none
  | none => none

/-- The FIFO database state: the `Trade` collection plus the next fresh
document id. -/
structure FifoState where
  trades : List Trade
  nextId : Nat
  deriving DecidableEq, Repr

/-- Stable insertion of a trade into a list ordered by `buy_date`
ascending. -/
def insertByDate (t : Trade) : List Trade → List Trade
  | [] => [t]
  | x :: xs => if t.buy_date ≤ x.buy_date then t :: x :: xs else x :: insertByDate t xs

/-- Stable sort by `buy_date` ascending, modelling the
`.sort({ buy_date: 1 })` of `getOpenTradesForTicker`. -/
def sortByDate : List Trade → List Trade
  | [] => []
  | x :: xs => insertByDate x (sortByDate xs)

/-- The `Trade.getOpenTradesForTicker` (`src/unnamed/part_001` lines
501-507): open trades of the ticker, oldest `buy_date` first. -/
def openTradesForTicker (s : FifoState) (tk : String) : List Trade :=
  sortByDate (s.trades.filter fun t => t.ticker == tk && t.status == TradeStatus.isOpen)

/-- Replace the document with `u`'s id by `u`, modelling
`document.save()` on a fetched document. -/
def updateById (db : List Trade) (u : Trade) : List Trade :=
  db.map fun t => if t.id = u.id then u else t

/-- Close a whole trade at `price`: the mutation
`trade.sell_price = sellPrice; trade.sell_date = new Date();
trade.status = 'closed'` of `handleSellCommand`. -/
def closeFull (price : ℚ) (now : Nat) (t : Trade) : Trade :=
  { t with sell_price := some price, sell_date := some now, status := TradeStatus.closed }

/-- Close a partially consumed trade: same as `closeFull` but with
`trade.quantity = sharesToSell` overwritten to the consumed amount
(`src/unnamed/part_000` lines 262-267). -/
def closeSplit (price : ℚ) (now : Nat) (c : ℚ) (t : Trade) : Trade :=
  { t with sell_price := some price, sell_date := some now,
           status := TradeStatus.closed, quantity := c }

/-- The remainder document created on a partial sell
(`src/unnamed/part_000` lines 253-259): same ticker, buy price and buy
date as the original, quantity the unconsumed remainder, open. -/
def mkRemainder (nid : Nat) (c : ℚ) (t : Trade) : Trade :=
  { id := nid, ticker := t.ticker, buy_price := t.buy_price,
    quantity := t.quantity - c, buy_date := t.buy_date,
    sell_price := none, sell_date := none, status := TradeStatus.isOpen }

/-- The `Math.min` on rationals, written out so that it evaluates by plain
comparison. -/
def rmin (a b : ℚ) : ℚ := if a ≤ b then a else b

/-- Result of the FIFO consumption loop: final collection, next fresh
id, `remainingToSell`, accumulated profit and revenue, and the list of
attributions (original trade, shares consumed from it), in loop order. -/
structure LoopResult where
  db : List Trade
  nextId : Nat
  remaining : ℚ
  totalProfit : ℚ
  totalRevenue : ℚ
  attrs : List (Trade × ℚ)
  deriving DecidableEq, Repr

/-- The FIFO consumption loop of `handleSellCommand`
(`src/unnamed/part_000` lines 234-272): walk the fetched open trades,
take `min(remainingToSell, trade.quantity)` from each, close fully
consumed trades, split partially consumed ones into a closed part and a
fresh open remainder, saving each document as the loop goes. -/
def sellLoop (price : ℚ) (now : Nat) : List Trade → ℚ → List Trade → Nat → LoopResult
  | [], r, db, nid => ⟨db, nid, r, 0, 0, []⟩
  | t :: ts, r, db, nid =>
    if r ≤ 0 then ⟨db, nid, r, 0, 0, []⟩
    else
      let c := rmin r t.quantity
      let tradeProfit := (price - t.buy_price) * c
      if c = t.quantity then
        let db1 := updateById db (closeFull price now t)
        let rest := sellLoop price now ts (r - c) db1 nid
        ⟨rest.db, rest.nextId, rest.remaining, tradeProfit + rest.totalProfit,
          price * c + rest.totalRevenue, (t, c) :: rest.attrs⟩
      else
        let db1 := updateById (db ++ [mkRemainder nid c t]) (closeSplit price now c t)
        let rest := sellLoop price now ts (r - c) db1 (nid + 1)
        ⟨rest.db, rest.nextId, rest.remaining, tradeProfit + rest.totalProfit,
          price * c + rest.totalRevenue, (t, c) :: rest.attrs⟩

/-- Error kinds raised by the command handlers. -/
inductive SellError where
  | InvalidInput
  | NoOpenPosition
  | InsufficientShares
  deriving DecidableEq, Repr

/-- Structured result of a sell, as reported by the handler's messages:
requested share count, shares actually sold, the unsold shortfall, the
accumulated profit and revenue, and the per-lot attributions. -/
structure SellOutcome where
  requested : ℚ
  sold : ℚ
  shortfall : ℚ
  totalProfit : ℚ
  totalRevenue : ℚ
  attrs : List (Trade × ℚ)
  deriving DecidableEq, Repr

/-- The `!sellQuantity` branch of `handleSellCommand`
(`src/unnamed/part_000` lines 204-226): close the oldest open trade
entirely and report its profit. -/
def sellOldest (s : FifoState) (tk : String) (price : ℚ) (now : Nat) :
    Except SellError (FifoState × SellOutcome) :=
  match openTradesForTicker s tk with
  | [] => Except.error SellError.NoOpenPosition
  | t0 :: _ =>
    Except.ok
      ({ trades := updateById s.trades (closeFull price now t0), nextId := s.nextId },
       { requested := t0.quantity, sold := t0.quantity, shortfall := 0,
         totalProfit := (price - t0.buy_price) * t0.quantity,
         totalRevenue := price * t0.quantity,
         attrs := [(t0, t0.quantity)] })

/-- The specific-quantity branch of `handleSellCommand`
(`src/unnamed/part_000` lines 227-284): run the FIFO consumption loop
with target `v` shares. -/
def sellTarget (s : FifoState) (tk : String) (price v : ℚ) (now : Nat) :
    Except SellError (FifoState × SellOutcome) :=
  match openTradesForTicker s tk with
  | [] => Except.error SellError.NoOpenPosition
  | t :: ts =>
    let res := sellLoop price now (t :: ts) v s.trades s.nextId
    Except.ok
      ({ trades := res.db, nextId := res.nextId },
       { requested := v, sold := v - res.remaining, shortfall := res.remaining,
         totalProfit := res.totalProfit, totalRevenue := res.totalRevenue,
         attrs := res.attrs })

/-- The `handleSellCommand` of the shares-based FIFO variant
(`src/unnamed/part_000` lines 171-290).  A given quantity of `0` is
falsy in JavaScript: it passes the validation
`sellQuantity && sellQuantity <= 0` and then takes the
`!sellQuantity` sell-the-oldest branch. -/
def sellShares (s : FifoState) (tk : String) (price : ℚ) (q : Option ℚ) (now : Nat) :
    Except SellError (FifoState × SellOutcome) :=
  if price ≤ 0 then Except.error SellError.InvalidInput
  else
    match q with
    | none => sellOldest s tk price now
    | some v =>
      if v ≠ 0 ∧ v ≤ 0 then Except.error SellError.InvalidInput
      else if v = 0 then sellOldest s tk price now
      else sellTarget s tk price v now

/-- The dollar-amount branch of `handleSellCommand` in
`src/unnamed/part_001` (lines 230-290): resolve the target share count
as `sellDollarAmount / sellPrice`, run the same consumption loop, and
report the requested dollar amount as revenue. -/
def sellTargetDollar (s : FifoState) (tk : String) (price d : ℚ) (now : Nat) :
    Except SellError (FifoState × SellOutcome) :=
  match openTradesForTicker s tk with
  | [] => Except.error SellError.NoOpenPosition
  | t :: ts =>
    let shares := d / price
    let res := sellLoop price now (t :: ts) shares s.trades s.nextId
    Except.ok
      ({ trades := res.db, nextId := res.nextId },
       { requested := shares, sold := shares - res.remaining, shortfall := res.remaining,
         totalProfit := res.totalProfit, totalRevenue := d,
         attrs := res.attrs })

/-- The `handleSellCommand` of the dollar-based FIFO variant
(`src/unnamed/part_001` lines 173-296). -/
def sellDollar (s : FifoState) (tk : String) (price : ℚ) (amt : Option ℚ) (now : Nat) :
    Except SellError (FifoState × SellOutcome) :=
  if price ≤ 0 then Except.error SellError.InvalidInput
  else
    match amt with
    | none => sellOldest s tk price now
    | some d =>
      if d ≠ 0 ∧ d ≤ 0 then Except.error SellError.InvalidInput
      else if d = 0 then sellOldest s tk price now
      else sellTargetDollar s tk price d now

/-- Append a fresh open trade document, modelling
`new Trade({ticker, buy_price, quantity}).save()`. -/
def addTrade (s : FifoState) (tk : String) (price qty : ℚ) (now : Nat) : FifoState :=
  { trades := s.trades ++
      [{ id := s.nextId, ticker := tk, buy_price := price, quantity := qty,
         buy_date := now, sell_price := none, sell_date := none,
         status := TradeStatus.isOpen }],
    nextId := s.nextId + 1 }

/-- The `handleBuyCommand` of the shares-based FIFO variant
(`src/unnamed/part_000` lines 130-169): validate price and quantity,
then store one new open trade with that share count. -/
def buyShares (s : FifoState) (tk : String) (price qty : ℚ) (now : Nat) : FifoState :=
  if price ≤ 0 ∨ qty ≤ 0 then s else addTrade s tk price qty now

/-- The `handleBuyCommand` of the dollar-based FIFO variant
(`src/unnamed/part_001` lines 130-171): the stored share count is
`quantity / price`, the shares the dollar amount buys. -/
def buyDollar (s : FifoState) (tk : String) (price amount : ℚ) (now : Nat) : FifoState :=
  if price ≤ 0 ∨ amount ≤ 0 then s else addTrade s tk price (amount / price) now

/-- A ledger operation of the FIFO variants. -/
inductive Op where
  | buy (tk : String) (price qty : ℚ) (now : Nat)
  | buyD (tk : String) (price amount : ℚ) (now : Nat)
  | sell (tk : String) (price : ℚ) (q : Option ℚ) (now : Nat)
  | sellD (tk : String) (price : ℚ) (amt : Option ℚ) (now : Nat)
  deriving DecidableEq, Repr

/-- Apply one operation to the FIFO state; a failed sell leaves the
state unchanged (the handler just sends an error message). -/
def applyOp (s : FifoState) : Op → FifoState
  | Op.buy tk p q now => buyShares s tk p q now
  | Op.buyD tk p a now => buyDollar s tk p a now
  | Op.sell tk p q now =>
    match sellShares s tk p q now with
    | Except.ok (s', _) => s'
    | Except.error _ => s
  | Op.sellD tk p a now =>
    match sellDollar s tk p a now with
    | Except.ok (s', _) => s'
    | Except.error _ => s

/-- Run a sequence of operations. -/
def runOps (s : FifoState) (ops : List Op) : FifoState :=
  ops.foldl applyOp s

/-- Quantity contributed by one document to a ticker's total. -/
def tickerQty (tk : String) (t : Trade) : ℚ :=
  if t.ticker = tk then t.quantity else 0

/-- Quantity contributed by one document to a ticker's open total. -/
def openQty (tk : String) (t : Trade) : ℚ :=
  if t.ticker = tk ∧ t.status = TradeStatus.isOpen then t.quantity else 0

/-- Quantity contributed by one document to a ticker's sold
(attributed) total: each closed document is one attribution and its
`quantity` is the attributed amount. -/
def closedQty (tk : String) (t : Trade) : ℚ :=
  if t.ticker = tk ∧ t.status = TradeStatus.closed then t.quantity else 0

/-- Total quantity of a ticker over the whole collection. -/
def dbQty (tk : String) (db : List Trade) : ℚ :=
  (db.map (tickerQty tk)).sum

/-- Total open quantity of a ticker: `sum(openQuantity)` of the spec. -/
def totalOpenQty (s : FifoState) (tk : String) : ℚ :=
  (s.trades.map (openQty tk)).sum

/-- Total sold (attributed) quantity of a ticker:
`sum(allAttributionQuantities)` of the spec. -/
def totalClosedQty (s : FifoState) (tk : String) : ℚ :=
  (s.trades.map (closedQty tk)).sum

/-- Share count a single operation buys for a ticker, mirroring the
handlers' validations. -/
def boughtQty (tk : String) : Op → ℚ
  | Op.buy tk' p q _ => if tk' = tk ∧ 0 < p ∧ 0 < q then q else 0
  | Op.buyD tk' p a _ => if tk' = tk ∧ 0 < p ∧ 0 < a then a / p else 0
  | Op.sell _ _ _ _ => 0
  | Op.sellD _ _ _ _ => 0

/-- Total share count a sequence of operations buys for a ticker:
`sum(boughtQuantities)` of the spec. -/
def boughtTotal (tk : String) (ops : List Op) : ℚ :=
  (ops.map (boughtQty tk)).sum

/-- Well-formedness of the collection: document ids are distinct and
below the next fresh id. -/
def Wf (s : FifoState) : Prop :=
  (s.trades.map Trade.id).Nodup ∧ ∀ t ∈ s.trades, t.id < s.nextId

/-- Equality of `Except` results is decidable when both payloads are. -/
def exceptDecEq {ε α : Type} [DecidableEq ε] [DecidableEq α] :
    DecidableEq (Except ε α) := fun a b =>
  match a, b with
  | Except.error e, Except.error f =>
    match decEq e f with
    | isTrue h => isTrue (h ▸ rfl)
    | isFalse h => isFalse fun hc => h (Except.error.inj hc)
  | Except.ok x, Except.ok y =>
    match decEq x y with
    | isTrue h => isTrue (h ▸ rfl)
    | isFalse h => isFalse fun hc => h (Except.ok.inj hc)
  | Except.error _, Except.ok _ => isFalse fun hc => Except.noConfusion hc
  | Except.ok _, Except.error _ => isFalse fun hc => Except.noConfusion hc

instance {ε α : Type} [DecidableEq ε] [DecidableEq α] : DecidableEq (Except ε α) :=
  exceptDecEq

instance (s : FifoState) : Decidable (Wf s) :=
  inferInstanceAs (Decidable (_ ∧ _))

/-- Weighted sum of a document list. -/
def wsum (f : Trade → ℚ) (db : List Trade) : ℚ :=
  (db.map f).sum

/-- Invariant carried through the consumption loop: the collection has
distinct ids all below the fresh id, and the fetched open documents
are distinct documents of the collection. -/
def LoopInv (db l : List Trade) (nid : Nat) : Prop :=
  (db.map Trade.id).Nodup ∧ (∀ t ∈ db, t.id < nid) ∧ (∀ x ∈ l, x ∈ db) ∧
    (l.map Trade.id).Nodup

/-- Every attribution of a list except possibly the last one consumed
its lot fully. -/
def FullButLast : List (Trade × ℚ) → Prop
  | [] => True
  | [_] => True
  | p :: q :: rest => p.2 = p.1.quantity ∧ FullButLast (q :: rest)


/-- A document of the weighted-average `Trade` collection
(`src/unnamed/part_002`, `tradeSchema`): one record per ticker. -/
structure AvgTrade where
  ticker : String
  average_buy_price : ℚ
  total_shares : ℚ
  total_invested : ℚ
  total_sold_value : ℚ
  total_shares_sold : ℚ
  first_buy_date : Nat
  last_buy_date : Nat
  last_sell_date : Option Nat
  deriving DecidableEq, Repr

/-- The `remaining_shares` virtual (`src/unnamed/part_002` lines
65-68). -/
def remainingShares (t : AvgTrade) : ℚ :=
  t.total_shares - t.total_shares_sold

/-- The `total_profit` virtual (`src/unnamed/part_002` lines 60-63). -/
def totalProfitAvg (t : AvgTrade) : ℚ :=
  t.total_sold_value - t.total_shares_sold * t.average_buy_price

/-- The `handleBuyCommand` of the weighted-average variant
(`src/api/index.js` lines 130-193): convert the dollar amount to
shares, then either initialize the ticker's record (first purchase) or
recompute the running average price. -/
def avgBuy (t : AvgTrade) (price amount : ℚ) (now : Nat) : AvgTrade :=
  if price ≤ 0 ∨ amount ≤ 0 then t
  else
    let newShares := amount / price
    if t.total_shares = 0 then
      { t with average_buy_price := price, total_shares := newShares,
               total_invested := amount, first_buy_date := now, last_buy_date := now }
    else
      let totalNewShares := t.total_shares + newShares
      let totalNewInvested := t.total_invested + amount
      { t with average_buy_price := totalNewInvested / totalNewShares,
               total_shares := totalNewShares, total_invested := totalNewInvested,
               last_buy_date := now }

/-- Outcome reported by the weighted-average sell. -/
structure AvgOutcome where
  sold : ℚ
  totalProfit : ℚ
  deriving DecidableEq, Repr

/-- The committed part of the weighted-average `handleSellCommand`
(`src/api/index.js` lines 238-269): refuse the sell outright if the
requested share count exceeds the remaining shares, otherwise add the
sold shares and value to the running totals. -/
def avgSellCore (t : AvgTrade) (price sharesToSell : ℚ) (now : Nat) :
    Except SellError (AvgTrade × AvgOutcome) :=
  if sharesToSell > remainingShares t then Except.error SellError.InsufficientShares
  else
    let sellValue := sharesToSell * price
    let profitPerShare := price - t.average_buy_price
    Except.ok
      ({ t with total_shares_sold := t.total_shares_sold + sharesToSell,
                total_sold_value := t.total_sold_value + sellValue,
                last_sell_date := some now },
       { sold := sharesToSell, totalProfit := profitPerShare * sharesToSell })

/-- The `handleSellCommand` of the weighted-average variant
(`src/api/index.js` lines 195-277): validate, fail when the ticker has
no holdings, resolve the share count (all remaining shares when no
dollar amount is given, `sellDollarAmount / sellPrice` otherwise), then
run the core update. -/
def avgSell (t : AvgTrade) (price : ℚ) (amt : Option ℚ) (now : Nat) :
    Except SellError (AvgTrade × AvgOutcome) :=
  if price ≤ 0 then Except.error SellError.InvalidInput
  else
    match amt with
    | none =>
      if t.total_shares = 0 then Except.error SellError.NoOpenPosition
      else avgSellCore t price (remainingShares t) now
    | some d =>
      if d ≠ 0 ∧ d ≤ 0 then Except.error SellError.InvalidInput
      else if t.total_shares = 0 then Except.error SellError.NoOpenPosition
      else if d = 0 then avgSellCore t price (remainingShares t) now
      else avgSellCore t price (d / price) now

/-- Example lot: 10 shares of AAPL bought at $100 (oldest). -/
def lotA : Trade :=
  ⟨0, "AAPL", 100, 10, 1, none, none, TradeStatus.isOpen⟩

/-- Example lot: 10 shares of AAPL bought at $110 (newer). -/
def lotB : Trade :=
  ⟨1, "AAPL", 110, 10, 2, none, none, TradeStatus.isOpen⟩

/-- Example ledger: the two AAPL lots of the specification's scenario. -/
def exState : FifoState := ⟨[lotA, lotB], 2⟩

/-- The ledger after selling 15 AAPL shares at $120 from `exState`:
`lotA` closed whole, `lotB` closed at quantity 5, a 5-share open
remainder of `lotB` appended. -/
def exState' : FifoState :=
  ⟨[⟨0, "AAPL", 100, 10, 1, some 120, some 3, TradeStatus.closed⟩,
    ⟨1, "AAPL", 110, 5, 2, some 120, some 3, TradeStatus.closed⟩,
    ⟨2, "AAPL", 110, 5, 2, none, none, TradeStatus.isOpen⟩], 3⟩

/-- The outcome of selling 15 AAPL shares at $120 from `exState`. -/
def exOut : SellOutcome :=
  ⟨15, 15, 0, 250, 1800, [(lotA, 10), (lotB, 5)]⟩

/-- Example ledger for the dollar-amount scenario: $100 of TSLA bought
at $50 per share (2 shares). -/
def tslaState : FifoState := buyDollar ⟨[], 0⟩ "TSLA" 50 100 1

/-- The TSLA ledger after selling $150 worth at $75 per share. -/
def tslaState' : FifoState :=
  ⟨[⟨0, "TSLA", 50, 2, 1, some 75, some 2, TradeStatus.closed⟩], 1⟩

/-- The outcome of selling $150 of TSLA at $75 per share. -/
def tslaOut : SellOutcome :=
  ⟨2, 2, 0, 50, 150, [(⟨0, "TSLA", 50, 2, 1, none, none, TradeStatus.isOpen⟩, 2)]⟩

/-- Example weighted-average record: 2 shares of AAPL at an average of
$100, nothing sold yet. -/
def exAvg : AvgTrade := ⟨"AAPL", 100, 2, 200, 0, 0, 1, 1, none⟩

/-- Example closed AAPL document, as left by an earlier 4-share sell at
$120 against a $100 lot. -/
def closedDoc : Trade :=
  ⟨0, "AAPL", 100, 4, 1, some 120, some 2, TradeStatus.closed⟩

/-- Example open AAPL document. -/
def openDoc : Trade :=
  ⟨1, "AAPL", 110, 6, 3, none, none, TradeStatus.isOpen⟩

/-- Example ledger holding one closed document next to an open one. -/
def mixedState : FifoState := ⟨[closedDoc, openDoc], 2⟩

/-- Example weighted-average record with no holdings. -/
def zeroAvg : AvgTrade := ⟨"X", 0, 0, 0, 0, 0, 0, 0, none⟩

theorem rmin_eq_left {a b : ℚ} (h : a ≤ b) : rmin a b = a := if_pos h

theorem rmin_eq_right {a b : ℚ} (h : b ≤ a) : rmin a b = b := by
  unfold rmin
  by_cases hab : a ≤ b
  · rw [if_pos hab]
    exact le_antisymm hab h
  · rw [if_neg hab]

theorem rmin_le_left (a b : ℚ) : rmin a b ≤ a := by
  unfold rmin
  by_cases hab : a ≤ b
  · rw [if_pos hab]
  · rw [if_neg hab]
    exact le_of_not_le hab

theorem rmin_le_right (a b : ℚ) : rmin a b ≤ b := by
  unfold rmin
  by_cases hab : a ≤ b
  · rw [if_pos hab]
    exact hab
  · rw [if_neg hab]

/-- The date-ordered insertion permutes: it only relocates `t`. -/
theorem insertByDate_perm (t : Trade) (l : List Trade) :
    List.Perm (insertByDate t l) (t :: l) := by
  induction l with
  | nil => simp [insertByDate]
  | cons x xs ih =>
    simp only [insertByDate]
    by_cases h : t.buy_date ≤ x.buy_date
    · rw [if_pos h]
    · rw [if_neg h]
      exact (ih.cons x).trans (List.Perm.swap t x xs)

/-- Sorting by date is a permutation of the input. -/
theorem sortByDate_perm (l : List Trade) : List.Perm (sortByDate l) l := by
  induction l with
  | nil => simp [sortByDate]
  | cons x xs ih =>
    exact (insertByDate_perm x (sortByDate xs)).trans (ih.cons x)

/-- Membership is unchanged by the date sort. -/
theorem mem_sortByDate {x : Trade} {l : List Trade} :
    x ∈ sortByDate l ↔ x ∈ l :=
  (sortByDate_perm l).mem_iff

/-- Inserting into a date-sorted list keeps it date-sorted. -/
theorem pairwise_insertByDate {t : Trade} {l : List Trade}
    (h : List.Pairwise (fun a b => a.buy_date ≤ b.buy_date) l) :
    List.Pairwise (fun a b => a.buy_date ≤ b.buy_date) (insertByDate t l) := by
  induction l with
  | nil => simp [insertByDate]
  | cons x xs ih =>
    rcases List.pairwise_cons.mp h with ⟨hx, hxs⟩
    simp only [insertByDate]
    by_cases hle : t.buy_date ≤ x.buy_date
    · rw [if_pos hle]
      refine List.pairwise_cons.mpr ⟨?_, h⟩
      intro b hb
      rcases List.mem_cons.mp hb with rfl | hb'
      · exact hle
      · exact hle.trans (hx b hb')
    · rw [if_neg hle]
      refine List.pairwise_cons.mpr ⟨?_, ih hxs⟩
      intro b hb
      have hb' : b = t ∨ b ∈ xs := by
        have hmem := (insertByDate_perm t xs).mem_iff.mp hb
        simpa using hmem
      rcases hb' with rfl | hb'
      · exact le_of_not_le hle
      · exact hx b hb'

/-- The date sort produces a list sorted by `buy_date` ascending. -/
theorem sortByDate_pairwise (l : List Trade) :
    List.Pairwise (fun a b => a.buy_date ≤ b.buy_date) (sortByDate l) := by
  induction l with
  | nil => simp [sortByDate]
  | cons x xs ih => exact pairwise_insertByDate ih

/-- Characterization of the open-trades query: exactly the open
documents of the ticker. -/
theorem mem_openTradesForTicker {s : FifoState} {tk : String} {x : Trade} :
    x ∈ openTradesForTicker s tk ↔
      x ∈ s.trades ∧ x.ticker = tk ∧ x.status = TradeStatus.isOpen := by
  unfold openTradesForTicker
  rw [mem_sortByDate, List.mem_filter]
  simp [and_assoc]

/-- Updating a document by id does not change the list of ids. -/
theorem updateById_map_id (db : List Trade) (u : Trade) :
    (updateById db u).map Trade.id = db.map Trade.id := by
  induction db with
  | nil => rfl
  | cons x xs ih =>
    simp only [updateById, List.map_cons] at ih ⊢
    by_cases h : x.id = u.id
    · rw [if_pos h, ih, h]
    · rw [if_neg h, ih]

/-- A document whose id differs from the update's survives unchanged. -/
theorem mem_updateById_of_ne {db : List Trade} {u x : Trade}
    (hx : x ∈ db) (h : x.id ≠ u.id) : x ∈ updateById db u :=
  List.mem_map.mpr ⟨x, hx, by rw [if_neg h]⟩

/-- If some document carries the update's id, the update is present
afterwards. -/
theorem mem_updateById_self {db : List Trade} {u t : Trade}
    (ht : t ∈ db) (h : t.id = u.id) : u ∈ updateById db u :=
  List.mem_map.mpr ⟨t, ht, by rw [if_pos h]⟩

/-- Every document after an update is the update itself or an untouched
original. -/
theorem of_mem_updateById {db : List Trade} {u y : Trade}
    (hy : y ∈ updateById db u) : y = u ∨ (y ∈ db ∧ y.id ≠ u.id) := by
  rcases List.mem_map.mp hy with ⟨a, ha, hEq⟩
  by_cases h : a.id = u.id
  · rw [if_pos h] at hEq
    exact Or.inl hEq.symm
  · rw [if_neg h] at hEq
    exact Or.inr ⟨hEq ▸ ha, hEq ▸ h⟩

/-- An update matching no document is a no-op. -/
theorem updateById_eq_self {db : List Trade} {u : Trade}
    (h : ∀ x ∈ db, x.id ≠ u.id) : updateById db u = db := by
  induction db with
  | nil => rfl
  | cons x xs ih =>
    simp only [updateById, List.map_cons] at ih ⊢
    rw [if_neg (h x (List.mem_cons_self x xs)),
        ih fun y hy => h y (List.mem_cons_of_mem x hy)]

/-- In a collection with distinct ids, the id determines the document. -/
theorem id_inj_of_nodup {db : List Trade} (h : (db.map Trade.id).Nodup)
    {x y : Trade} (hx : x ∈ db) (hy : y ∈ db) (hid : x.id = y.id) : x = y := by
  induction db with
  | nil => cases hx
  | cons a l ih =>
    simp only [List.map_cons, List.nodup_cons] at h
    rcases h with ⟨hna, hl⟩
    rcases List.mem_cons.mp hx with rfl | hx'
    · rcases List.mem_cons.mp hy with rfl | hy'
      · rfl
      · exact absurd (hid ▸ List.mem_map_of_mem Trade.id hy') hna
    · rcases List.mem_cons.mp hy with rfl | hy'
      · exact absurd (hid ▸ List.mem_map_of_mem Trade.id hx') hna
      · exact ih hl hx' hy'

theorem wsum_nil (f : Trade → ℚ) : wsum f [] = 0 := rfl

theorem wsum_cons (f : Trade → ℚ) (x : Trade) (db : List Trade) :
    wsum f (x :: db) = f x + wsum f db := by
  simp [wsum]

theorem wsum_append (f : Trade → ℚ) (db1 db2 : List Trade) :
    wsum f (db1 ++ db2) = wsum f db1 + wsum f db2 := by
  simp [wsum]

theorem wsum_eq_zero {f : Trade → ℚ} {db : List Trade}
    (h : ∀ x ∈ db, f x = 0) : wsum f db = 0 := by
  induction db with
  | nil => rfl
  | cons x xs ih =>
    rw [wsum_cons, h x (List.mem_cons_self x xs),
      ih fun y hy => h y (List.mem_cons_of_mem x hy), add_zero]

/-- Effect of an id-update on a weighted sum, in a collection with
distinct ids: swap the original's weight for the update's. -/
theorem wsum_updateById (f : Trade → ℚ) {db : List Trade} {u t : Trade}
    (h : (db.map Trade.id).Nodup) (ht : t ∈ db) (hid : u.id = t.id) :
    wsum f (updateById db u) = wsum f db - f t + f u := by
  induction db with
  | nil => cases ht
  | cons a l ih =>
    simp only [List.map_cons, List.nodup_cons] at h
    rcases h with ⟨hna, hl⟩
    rcases List.mem_cons.mp ht with rfl | ht'
    · have hcond : t.id = u.id := hid.symm
      have htail : updateById l u = l := by
        refine updateById_eq_self fun x hx hx' => hna ?_
        rw [← hid, ← hx']
        exact List.mem_map_of_mem Trade.id hx
      simp only [updateById, List.map_cons, if_pos hcond]
      have htail' : List.map (fun t' => if t'.id = u.id then u else t') l = l := htail
      rw [htail', wsum_cons, wsum_cons]
      ring
    · have hcond : ¬ a.id = u.id := by
        intro hc
        exact hna (by rw [hc, hid]; exact List.mem_map_of_mem Trade.id ht')
      simp only [updateById, List.map_cons, if_neg hcond]
      have := ih hl ht'
      simp only [updateById] at this
      rw [wsum_cons, this, wsum_cons]
      ring

@[simp]
theorem closeFull_id (price : ℚ) (now : Nat) (t : Trade) :
    (closeFull price now t).id = t.id := rfl

@[simp]
theorem closeFull_ticker (price : ℚ) (now : Nat) (t : Trade) :
    (closeFull price now t).ticker = t.ticker := rfl

@[simp]
theorem closeFull_quantity (price : ℚ) (now : Nat) (t : Trade) :
    (closeFull price now t).quantity = t.quantity := rfl

@[simp]
theorem closeFull_status (price : ℚ) (now : Nat) (t : Trade) :
    (closeFull price now t).status = TradeStatus.closed := rfl

@[simp]
theorem closeSplit_id (price : ℚ) (now : Nat) (c : ℚ) (t : Trade) :
    (closeSplit price now c t).id = t.id := rfl

@[simp]
theorem closeSplit_ticker (price : ℚ) (now : Nat) (c : ℚ) (t : Trade) :
    (closeSplit price now c t).ticker = t.ticker := rfl

@[simp]
theorem closeSplit_quantity (price : ℚ) (now : Nat) (c : ℚ) (t : Trade) :
    (closeSplit price now c t).quantity = c := rfl

@[simp]
theorem closeSplit_status (price : ℚ) (now : Nat) (c : ℚ) (t : Trade) :
    (closeSplit price now c t).status = TradeStatus.closed := rfl

@[simp]
theorem mkRemainder_id (nid : Nat) (c : ℚ) (t : Trade) :
    (mkRemainder nid c t).id = nid := rfl

@[simp]
theorem mkRemainder_ticker (nid : Nat) (c : ℚ) (t : Trade) :
    (mkRemainder nid c t).ticker = t.ticker := rfl

@[simp]
theorem mkRemainder_quantity (nid : Nat) (c : ℚ) (t : Trade) :
    (mkRemainder nid c t).quantity = t.quantity - c := rfl

@[simp]
theorem mkRemainder_status (nid : Nat) (c : ℚ) (t : Trade) :
    (mkRemainder nid c t).status = TradeStatus.isOpen := rfl

/-- Closing a whole trade preserves the loop invariant for the
remaining fetched trades. -/
theorem loopInv_full (price : ℚ) (now : Nat) {db : List Trade} {t : Trade}
    {ts : List Trade} {nid : Nat} (h : LoopInv db (t :: ts) nid) :
    LoopInv (updateById db (closeFull price now t)) ts nid := by
  obtain ⟨h1, h2, h3, h4⟩ := h
  have htmem : t ∈ db := h3 t (List.mem_cons_self t ts)
  simp only [List.map_cons, List.nodup_cons] at h4
  obtain ⟨htid, h4'⟩ := h4
  refine ⟨?_, ?_, ?_, h4'⟩
  · rw [updateById_map_id]; exact h1
  · intro x hx
    rcases of_mem_updateById hx with rfl | ⟨hx', _⟩
    · exact h2 t htmem
    · exact h2 x hx'
  · intro x hx
    have hxdb := h3 x (List.mem_cons_of_mem t hx)
    refine mem_updateById_of_ne hxdb ?_
    intro hc
    have hc' : x.id = t.id := hc
    exact htid (hc' ▸ List.mem_map_of_mem Trade.id hx)

/-- Splitting a trade (insert the remainder, close the original)
preserves the loop invariant, with the fresh id advanced. -/
theorem loopInv_split (price : ℚ) (now : Nat) (c : ℚ) {db : List Trade}
    {t : Trade} {ts : List Trade} {nid : Nat} (h : LoopInv db (t :: ts) nid) :
    LoopInv (updateById (db ++ [mkRemainder nid c t]) (closeSplit price now c t))
      ts (nid + 1) := by
  obtain ⟨h1, h2, h3, h4⟩ := h
  have htmem : t ∈ db := h3 t (List.mem_cons_self t ts)
  simp only [List.map_cons, List.nodup_cons] at h4
  obtain ⟨htid, h4'⟩ := h4
  have hfresh : (nid : Nat) ∉ db.map Trade.id := by
    intro hc
    rcases List.mem_map.mp hc with ⟨y, hy, hyid⟩
    exact absurd (hyid ▸ h2 y hy) (lt_irrefl nid)
  refine ⟨?_, ?_, ?_, h4'⟩
  · rw [updateById_map_id, List.map_append]
    simp only [List.map_cons, List.map_nil, mkRemainder_id]
    rw [List.nodup_append]
    refine ⟨h1, List.nodup_singleton _, ?_⟩
    intro a ha hb
    simp only [List.mem_singleton] at hb
    subst hb
    exact hfresh ha
  · intro x hx
    rcases of_mem_updateById hx with rfl | ⟨hx', _⟩
    · exact Nat.lt_succ_of_lt (h2 t htmem)
    · rcases List.mem_append.mp hx' with hdb | hrem
      · exact Nat.lt_succ_of_lt (h2 x hdb)
      · simp only [List.mem_singleton] at hrem
        subst hrem
        exact Nat.lt_succ_self nid
  · intro x hx
    have hxdb := h3 x (List.mem_cons_of_mem t hx)
    refine mem_updateById_of_ne (List.mem_append_left _ hxdb) ?_
    intro hc
    have hc' : x.id = t.id := hc
    exact htid (hc' ▸ List.mem_map_of_mem Trade.id hx)

/-- The loop stops immediately when the remaining target is
non-positive. -/
theorem sellLoop_nonpos {price : ℚ} {now : Nat} {l : List Trade} {r : ℚ}
    {db : List Trade} {nid : Nat} (h : r ≤ 0) :
    sellLoop price now l r db nid = ⟨db, nid, r, 0, 0, []⟩ := by
  cases l with
  | nil => rfl
  | cons t ts => simp [sellLoop, h]

theorem dbQty_eq_wsum (tk : String) (db : List Trade) :
    dbQty tk db = wsum (tickerQty tk) db := rfl

/-- The consumption loop never changes any ticker's total quantity in
the collection: fully consumed trades keep their quantity, and a split
redistributes it between the closed part and the open remainder. -/
theorem sellLoop_dbQty (tk : String) (price : ℚ) (now : Nat) :
    ∀ (l : List Trade) (r : ℚ) (db : List Trade) (nid : Nat),
    LoopInv db l nid →
    dbQty tk (sellLoop price now l r db nid).db = dbQty tk db := by
  intro l
  induction l with
  | nil => intro r db nid _; rfl
  | cons t ts ih =>
    intro r db nid hinv
    by_cases hr : r ≤ 0
    · simp [sellLoop, hr]
    · obtain ⟨h1, h2, h3, h4⟩ := hinv
      have htmem : t ∈ db := h3 t (List.mem_cons_self t ts)
      simp only [sellLoop, if_neg hr]
      by_cases hc : rmin r t.quantity = t.quantity
      · rw [if_pos hc]
        simp only []
        rw [ih _ _ _ (loopInv_full price now ⟨h1, h2, h3, h4⟩)]
        rw [dbQty_eq_wsum, dbQty_eq_wsum,
          @wsum_updateById (tickerQty tk) db (closeFull price now t) t h1 htmem rfl]
        have hsame : tickerQty tk (closeFull price now t) = tickerQty tk t := by
          simp [tickerQty, closeFull]
        rw [hsame]
        ring
      · rw [if_neg hc]
        simp only []
        have hfresh : (nid : Nat) ∉ db.map Trade.id := by
          intro hmem
          rcases List.mem_map.mp hmem with ⟨y, hy, hyid⟩
          exact absurd (hyid ▸ h2 y hy) (lt_irrefl nid)
        have hnodup2 : ((db ++ [mkRemainder nid (rmin r t.quantity) t]).map Trade.id).Nodup := by
          rw [List.map_append]
          simp only [List.map_cons, List.map_nil, mkRemainder_id]
          rw [List.nodup_append]
          refine ⟨h1, List.nodup_singleton _, ?_⟩
          intro a ha hb
          simp only [List.mem_singleton] at hb
          subst hb
          exact hfresh ha
        rw [ih _ _ _ (loopInv_split price now (rmin r t.quantity) ⟨h1, h2, h3, h4⟩)]
        rw [dbQty_eq_wsum, dbQty_eq_wsum,
          @wsum_updateById (tickerQty tk) (db ++ [mkRemainder nid (rmin r t.quantity) t])
            (closeSplit price now (rmin r t.quantity) t) t hnodup2
            (List.mem_append_left _ htmem) rfl,
          wsum_append, wsum_cons, wsum_nil]
        by_cases htk : t.ticker = tk
        · simp only [tickerQty, mkRemainder_ticker, closeSplit_ticker, htk, if_pos,
            mkRemainder_quantity, closeSplit_quantity, if_true]
          ring
        · simp only [tickerQty, mkRemainder_ticker, closeSplit_ticker, htk, if_false]
          ring

/-- The loop keeps ids distinct and below the (possibly advanced)
fresh id. -/
theorem sellLoop_wf (price : ℚ) (now : Nat) :
    ∀ (l : List Trade) (r : ℚ) (db : List Trade) (nid : Nat),
    LoopInv db l nid →
    ((sellLoop price now l r db nid).db.map Trade.id).Nodup ∧
    (∀ t ∈ (sellLoop price now l r db nid).db,
      t.id < (sellLoop price now l r db nid).nextId) ∧
    nid ≤ (sellLoop price now l r db nid).nextId := by
  intro l
  induction l with
  | nil => intro r db nid hinv; exact ⟨hinv.1, hinv.2.1, le_refl nid⟩
  | cons t ts ih =>
    intro r db nid hinv
    by_cases hr : r ≤ 0
    · rw [sellLoop_nonpos hr]
      exact ⟨hinv.1, hinv.2.1, le_refl nid⟩
    · simp only [sellLoop, if_neg hr]
      by_cases hc : rmin r t.quantity = t.quantity
      · rw [if_pos hc]
        exact ih _ _ _ (loopInv_full price now hinv)
      · rw [if_neg hc]
        obtain ⟨a, b, c'⟩ := ih _ _ _ (loopInv_split price now (rmin r t.quantity) hinv)
        exact ⟨a, b, Nat.le_of_succ_le c'⟩

/-- Frame property of the loop: a document outside the fetched open
list is untouched, and it stays the unique document with its id. -/
theorem sellLoop_frame (price : ℚ) (now : Nat) :
    ∀ (l : List Trade) (r : ℚ) (db : List Trade) (nid : Nat) (x : Trade),
    LoopInv db l nid → x ∈ db → x.id ∉ l.map Trade.id →
    (∀ y ∈ db, y.id = x.id → y = x) →
    x ∈ (sellLoop price now l r db nid).db ∧
      ∀ y ∈ (sellLoop price now l r db nid).db, y.id = x.id → y = x := by
  intro l
  induction l with
  | nil => intro r db nid x _ hx _ huniq; exact ⟨hx, huniq⟩
  | cons t ts ih =>
    intro r db nid x hinv hx hxid huniq
    have hxt : x.id ≠ t.id := fun h =>
      hxid (by rw [List.map_cons, h]; exact List.mem_cons_self _ _)
    have hxts : x.id ∉ ts.map Trade.id := fun h =>
      hxid (by rw [List.map_cons]; exact List.mem_cons_of_mem _ h)
    by_cases hr : r ≤ 0
    · rw [sellLoop_nonpos hr]
      exact ⟨hx, huniq⟩
    · simp only [sellLoop, if_neg hr]
      by_cases hc : rmin r t.quantity = t.quantity
      · rw [if_pos hc]
        apply ih _ _ _ _ (loopInv_full price now hinv) (mem_updateById_of_ne hx hxt) hxts
        intro y hy hyid
        rcases of_mem_updateById hy with rfl | ⟨hy', _⟩
        · exact absurd hyid.symm hxt
        · exact huniq y hy' hyid
      · rw [if_neg hc]
        apply ih _ _ _ _ (loopInv_split price now (rmin r t.quantity) hinv)
          (mem_updateById_of_ne (List.mem_append_left _ hx) hxt) hxts
        intro y hy hyid
        rcases of_mem_updateById hy with rfl | ⟨hy', _⟩
        · exact absurd hyid.symm hxt
        · rcases List.mem_append.mp hy' with hdb | hrem
          · exact huniq y hdb hyid
          · simp only [List.mem_singleton] at hrem
            subst hrem
            have hnid : nid = x.id := hyid
            exact absurd (hnid ▸ hinv.2.1 x hx) (lt_irrefl _)

theorem qsum_nonneg {l : List Trade} (h : ∀ x ∈ l, 0 < x.quantity) :
    0 ≤ (l.map Trade.quantity).sum := by
  apply List.sum_nonneg
  intro q hq
  rcases List.mem_map.mp hq with ⟨x, hx, rfl⟩
  exact le_of_lt (h x hx)

/-- When the target covers all fetched quantity, the loop consumes
every fetched document fully: the remaining target drops by the whole
fetched quantity, and every document still open afterwards is an
untouched document outside the fetched list. -/
theorem sellLoop_consumeAll (price : ℚ) (now : Nat) :
    ∀ (l : List Trade) (r : ℚ) (db : List Trade) (nid : Nat),
    LoopInv db l nid → (∀ x ∈ l, 0 < x.quantity) →
    (l.map Trade.quantity).sum ≤ r →
    (sellLoop price now l r db nid).remaining = r - (l.map Trade.quantity).sum ∧
    ∀ y ∈ (sellLoop price now l r db nid).db, y.status = TradeStatus.isOpen →
      y ∈ db ∧ y.id ∉ l.map Trade.id := by
  intro l
  induction l with
  | nil =>
    intro r db nid _ _ _
    refine ⟨by simp [sellLoop], ?_⟩
    intro y hy _
    exact ⟨hy, by simp⟩
  | cons t ts ih =>
    intro r db nid hinv hpos hle
    have hts : 0 ≤ (ts.map Trade.quantity).sum :=
      qsum_nonneg fun x hx => hpos x (List.mem_cons_of_mem t hx)
    have htq : 0 < t.quantity := hpos t (List.mem_cons_self t ts)
    have hsum : (List.map Trade.quantity (t :: ts)).sum =
        t.quantity + (ts.map Trade.quantity).sum := by simp
    have hqr : t.quantity ≤ r := by rw [hsum] at hle; linarith
    have hr : ¬ r ≤ 0 := by linarith
    have hc : rmin r t.quantity = t.quantity := rmin_eq_right hqr
    simp only [sellLoop, if_neg hr, if_pos hc]
    rw [hc]
    have hinv' := loopInv_full price now hinv
    have hle' : (ts.map Trade.quantity).sum ≤ r - t.quantity := by
      rw [hsum] at hle; linarith
    obtain ⟨hrem, hopen⟩ := ih (r - t.quantity) _ nid hinv'
      (fun x hx => hpos x (List.mem_cons_of_mem t hx)) hle'
    constructor
    · rw [hrem, hsum]; ring
    · intro y hy hyopen
      obtain ⟨hy', hyid⟩ := hopen y hy hyopen
      rcases of_mem_updateById hy' with rfl | ⟨hy'', hyne⟩
      · exact absurd hyopen (by simp)
      · refine ⟨hy'', ?_⟩
        rw [List.map_cons]
        intro hmem
        rcases List.mem_cons.mp hmem with h | h
        · exact hyne h
        · exact hyid h

/-- The attributions pair off an initial segment of the fetched open
list, in its order. -/
theorem sellLoop_attrs_decomp (price : ℚ) (now : Nat) :
    ∀ (l : List Trade) (r : ℚ) (db : List Trade) (nid : Nat),
    ∃ rest, l = ((sellLoop price now l r db nid).attrs.map Prod.fst) ++ rest := by
  intro l
  induction l with
  | nil => intro r db nid; exact ⟨[], rfl⟩
  | cons t ts ih =>
    intro r db nid
    by_cases hr : r ≤ 0
    · rw [sellLoop_nonpos hr]
      exact ⟨t :: ts, rfl⟩
    · simp only [sellLoop, if_neg hr]
      by_cases hc : rmin r t.quantity = t.quantity
      · rw [if_pos hc]
        obtain ⟨rest, hrest⟩ :=
          ih (r - rmin r t.quantity) (updateById db (closeFull price now t)) nid
        exact ⟨rest, by rw [List.map_cons, List.cons_append, ← hrest]⟩
      · rw [if_neg hc]
        obtain ⟨rest, hrest⟩ := ih (r - rmin r t.quantity)
          (updateById (db ++ [mkRemainder nid (rmin r t.quantity) t])
            (closeSplit price now (rmin r t.quantity) t)) (nid + 1)
        exact ⟨rest, by rw [List.map_cons, List.cons_append, ← hrest]⟩

/-- Indexed reading of `FullButLast`: every attribution that has a
successor consumed its lot fully. -/
theorem fullButLast_get :
    ∀ (A : List (Trade × ℚ)), FullButLast A →
    ∀ (i : Nat) (hi : i + 1 < A.length),
    (A.get ⟨i, Nat.lt_of_succ_lt hi⟩).2 =
      (A.get ⟨i, Nat.lt_of_succ_lt hi⟩).1.quantity := by
  intro A
  induction A with
  | nil => intro _ i hi; simp at hi
  | cons p A' ihA =>
    intro h i hi
    cases A' with
    | nil => simp at hi
    | cons q rest =>
      obtain ⟨hp, hrest⟩ := h
      cases i with
      | zero => exact hp
      | succ i' =>
        have hi' : i' + 1 < (q :: rest).length := by
          simp only [List.length_cons] at hi ⊢
          omega
        exact ihA hrest i' hi'

/-- A partial consumption always happens at the final attribution: when
the `min` is the remaining target rather than the lot's quantity, the
target drops to zero and the loop stops. -/
theorem sellLoop_fullButLast (price : ℚ) (now : Nat) :
    ∀ (l : List Trade) (r : ℚ) (db : List Trade) (nid : Nat),
    FullButLast (sellLoop price now l r db nid).attrs := by
  intro l
  induction l with
  | nil => intro r db nid; exact trivial
  | cons t ts ih =>
    intro r db nid
    by_cases hr : r ≤ 0
    · rw [sellLoop_nonpos hr]
      exact trivial
    · simp only [sellLoop, if_neg hr]
      by_cases hc : rmin r t.quantity = t.quantity
      · rw [if_pos hc]
        have ih' := ih (r - rmin r t.quantity) (updateById db (closeFull price now t)) nid
        rcases hA : (sellLoop price now ts (r - rmin r t.quantity)
            (updateById db (closeFull price now t)) nid).attrs with _ | ⟨q, rest⟩
        · exact trivial
        · rw [hA] at ih'
          exact ⟨hc, ih'⟩
      · rw [if_neg hc]
        have hrq : r ≤ t.quantity := le_of_not_le fun hq => hc (rmin_eq_right hq)
        have hzero : r - rmin r t.quantity = 0 := by rw [rmin_eq_left hrq]; ring
        have hempty : (sellLoop price now ts (r - rmin r t.quantity)
            (updateById (db ++ [mkRemainder nid (rmin r t.quantity) t])
              (closeSplit price now (rmin r t.quantity) t)) (nid + 1)).attrs = [] := by
          rw [hzero, sellLoop_nonpos (le_refl (0 : ℚ))]
        rw [hempty]
        exact trivial

/-- When a partial consumption of `(t, c)` happens, the closed copy of
the original (quantity overwritten to `c`) and an open remainder with
the same ticker, buy price and buy date are both in the final
collection. -/
theorem sellLoop_split (price : ℚ) (now : Nat) :
    ∀ (l : List Trade) (r : ℚ) (db : List Trade) (nid : Nat),
    LoopInv db l nid →
    ∀ p ∈ (sellLoop price now l r db nid).attrs, p.2 ≠ p.1.quantity →
    closeSplit price now p.2 p.1 ∈ (sellLoop price now l r db nid).db ∧
    ∃ u ∈ (sellLoop price now l r db nid).db,
      u.ticker = p.1.ticker ∧ u.buy_price = p.1.buy_price ∧
      u.buy_date = p.1.buy_date ∧ u.quantity = p.1.quantity - p.2 ∧
      u.status = TradeStatus.isOpen ∧ u.sell_price = none := by
  intro l
  induction l with
  | nil =>
    intro r db nid _ p hp
    simp [sellLoop] at hp
  | cons t ts ih =>
    intro r db nid hinv p hp hne
    by_cases hr : r ≤ 0
    · rw [sellLoop_nonpos hr] at hp
      simp at hp
    · by_cases hc : rmin r t.quantity = t.quantity
      · simp only [sellLoop, if_neg hr, if_pos hc] at hp ⊢
        rcases List.mem_cons.mp hp with rfl | hp'
        · exact absurd hc hne
        · exact ih _ _ _ (loopInv_full price now hinv) p hp' hne
      · have hrq : r ≤ t.quantity := le_of_not_le fun hq => hc (rmin_eq_right hq)
        have hcr : rmin r t.quantity = r := rmin_eq_left hrq
        have hzero : r - rmin r t.quantity = 0 := by rw [hcr]; ring
        have htmem : t ∈ db := hinv.2.2.1 t (List.mem_cons_self t ts)
        have hrest : sellLoop price now ts (r - rmin r t.quantity)
            (updateById (db ++ [mkRemainder nid (rmin r t.quantity) t])
              (closeSplit price now (rmin r t.quantity) t)) (nid + 1) =
            ⟨updateById (db ++ [mkRemainder nid (rmin r t.quantity) t])
              (closeSplit price now (rmin r t.quantity) t), nid + 1, 0, 0, 0, []⟩ := by
          rw [hzero, sellLoop_nonpos (le_refl (0 : ℚ))]
        simp only [sellLoop, if_neg hr, if_neg hc, hrest] at hp ⊢
        rcases List.mem_cons.mp hp with rfl | hp'
        · constructor
          · exact mem_updateById_self (List.mem_append_left _ htmem) rfl
          · refine ⟨mkRemainder nid (rmin r t.quantity) t, ?_, ?_⟩
            · refine mem_updateById_of_ne
                (List.mem_append_right _ (List.mem_singleton_self _)) ?_
              intro hid
              have hid' : nid = t.id := hid
              exact absurd (hid' ▸ hinv.2.1 t htmem) (lt_irrefl _)
            · exact ⟨rfl, rfl, rfl, rfl, rfl, rfl⟩
        · simp at hp'

theorem sellOldest_empty {s : FifoState} {tk : String} {price : ℚ} {now : Nat}
    (hl : openTradesForTicker s tk = []) :
    sellOldest s tk price now = Except.error SellError.NoOpenPosition := by
  unfold sellOldest
  rw [hl]

theorem sellOldest_eq {s : FifoState} {tk : String} {price : ℚ} {now : Nat}
    {t0 : Trade} {rest : List Trade} (hl : openTradesForTicker s tk = t0 :: rest) :
    sellOldest s tk price now = Except.ok
      ({ trades := updateById s.trades (closeFull price now t0), nextId := s.nextId },
       { requested := t0.quantity, sold := t0.quantity, shortfall := 0,
         totalProfit := (price - t0.buy_price) * t0.quantity,
         totalRevenue := price * t0.quantity, attrs := [(t0, t0.quantity)] }) := by
  unfold sellOldest
  rw [hl]

theorem sellTarget_empty {s : FifoState} {tk : String} {price v : ℚ} {now : Nat}
    (hl : openTradesForTicker s tk = []) :
    sellTarget s tk price v now = Except.error SellError.NoOpenPosition := by
  unfold sellTarget
  rw [hl]

theorem sellTarget_eq {s : FifoState} {tk : String} {price v : ℚ} {now : Nat}
    {t : Trade} {ts : List Trade} (hl : openTradesForTicker s tk = t :: ts) :
    sellTarget s tk price v now = Except.ok
      ({ trades := (sellLoop price now (t :: ts) v s.trades s.nextId).db,
         nextId := (sellLoop price now (t :: ts) v s.trades s.nextId).nextId },
       { requested := v,
         sold := v - (sellLoop price now (t :: ts) v s.trades s.nextId).remaining,
         shortfall := (sellLoop price now (t :: ts) v s.trades s.nextId).remaining,
         totalProfit := (sellLoop price now (t :: ts) v s.trades s.nextId).totalProfit,
         totalRevenue := (sellLoop price now (t :: ts) v s.trades s.nextId).totalRevenue,
         attrs := (sellLoop price now (t :: ts) v s.trades s.nextId).attrs }) := by
  unfold sellTarget
  rw [hl]

theorem sellTargetDollar_empty {s : FifoState} {tk : String} {price d : ℚ} {now : Nat}
    (hl : openTradesForTicker s tk = []) :
    sellTargetDollar s tk price d now = Except.error SellError.NoOpenPosition := by
  unfold sellTargetDollar
  rw [hl]

theorem sellTargetDollar_eq {s : FifoState} {tk : String} {price d : ℚ} {now : Nat}
    {t : Trade} {ts : List Trade} (hl : openTradesForTicker s tk = t :: ts) :
    sellTargetDollar s tk price d now = Except.ok
      ({ trades := (sellLoop price now (t :: ts) (d / price) s.trades s.nextId).db,
         nextId := (sellLoop price now (t :: ts) (d / price) s.trades s.nextId).nextId },
       { requested := d / price,
         sold := d / price - (sellLoop price now (t :: ts) (d / price) s.trades s.nextId).remaining,
         shortfall := (sellLoop price now (t :: ts) (d / price) s.trades s.nextId).remaining,
         totalProfit := (sellLoop price now (t :: ts) (d / price) s.trades s.nextId).totalProfit,
         totalRevenue := d,
         attrs := (sellLoop price now (t :: ts) (d / price) s.trades s.nextId).attrs }) := by
  unfold sellTargetDollar
  rw [hl]

/-- The open-trades query gives a loop invariant on a well-formed
state. -/
theorem openTrades_id_nodup {s : FifoState} {tk : String} (hwf : Wf s) :
    ((openTradesForTicker s tk).map Trade.id).Nodup := by
  have hperm : List.Perm ((openTradesForTicker s tk).map Trade.id)
      ((s.trades.filter fun t =>
        t.ticker == tk && t.status == TradeStatus.isOpen).map Trade.id) :=
    (sortByDate_perm _).map Trade.id
  have hsub := (List.filter_sublist
    (p := fun t => t.ticker == tk && t.status == TradeStatus.isOpen) s.trades).map Trade.id
  exact hperm.nodup_iff.mpr (hsub.nodup hwf.1)

theorem loopInv_of_wf {s : FifoState} (hwf : Wf s) (tk : String) :
    LoopInv s.trades (openTradesForTicker s tk) s.nextId :=
  ⟨hwf.1, hwf.2, fun _ hx => (mem_openTradesForTicker.mp hx).1, openTrades_id_nodup hwf⟩

theorem wf_addTrade {s : FifoState} (hwf : Wf s) (tk : String) (price qty : ℚ)
    (now : Nat) : Wf (addTrade s tk price qty now) := by
  obtain ⟨h1, h2⟩ := hwf
  constructor
  · simp only [addTrade, List.map_append, List.map_cons, List.map_nil]
    rw [List.nodup_append]
    refine ⟨h1, List.nodup_singleton _, ?_⟩
    intro a ha hb
    simp only [List.mem_singleton] at hb
    subst hb
    rcases List.mem_map.mp ha with ⟨y, hy, hyid⟩
    exact absurd (hyid ▸ h2 y hy) (lt_irrefl _)
  · intro t ht
    simp only [addTrade] at ht ⊢
    rcases List.mem_append.mp ht with hdb | hnew
    · exact Nat.lt_succ_of_lt (h2 t hdb)
    · simp only [List.mem_singleton] at hnew
      subst hnew
      exact Nat.lt_succ_self _

theorem sellOldest_wf {s : FifoState} {tk : String} {price : ℚ} {now : Nat}
    {s' : FifoState} {out : SellOutcome} (hwf : Wf s)
    (h : sellOldest s tk price now = Except.ok (s', out)) : Wf s' := by
  rcases hl : openTradesForTicker s tk with _ | ⟨t0, rest⟩
  · rw [sellOldest_empty hl] at h
    cases h
  · rw [sellOldest_eq hl] at h
    injection h with hpair
    have hs' := congrArg Prod.fst hpair
    simp only at hs'
    subst hs'
    have ht0 : t0 ∈ s.trades :=
      (mem_openTradesForTicker.mp (hl ▸ List.mem_cons_self t0 rest)).1
    refine ⟨?_, ?_⟩
    · rw [updateById_map_id]
      exact hwf.1
    · intro t ht
      rcases of_mem_updateById ht with rfl | ⟨ht', _⟩
      · exact hwf.2 t0 ht0
      · exact hwf.2 t ht'

theorem sellTarget_wf {s : FifoState} {tk : String} {price v : ℚ} {now : Nat}
    {s' : FifoState} {out : SellOutcome} (hwf : Wf s)
    (h : sellTarget s tk price v now = Except.ok (s', out)) : Wf s' := by
  rcases hl : openTradesForTicker s tk with _ | ⟨t, ts⟩
  · rw [sellTarget_empty hl] at h
    cases h
  · rw [sellTarget_eq hl] at h
    injection h with hpair
    have hs' := congrArg Prod.fst hpair
    simp only at hs'
    subst hs'
    have hinv : LoopInv s.trades (t :: ts) s.nextId := hl ▸ loopInv_of_wf hwf tk
    obtain ⟨a, b, _⟩ := sellLoop_wf price now (t :: ts) v s.trades s.nextId hinv
    exact ⟨a, b⟩

theorem sellTargetDollar_wf {s : FifoState} {tk : String} {price d : ℚ} {now : Nat}
    {s' : FifoState} {out : SellOutcome} (hwf : Wf s)
    (h : sellTargetDollar s tk price d now = Except.ok (s', out)) : Wf s' := by
  rcases hl : openTradesForTicker s tk with _ | ⟨t, ts⟩
  · rw [sellTargetDollar_empty hl] at h
    cases h
  · rw [sellTargetDollar_eq hl] at h
    injection h with hpair
    have hs' := congrArg Prod.fst hpair
    simp only at hs'
    subst hs'
    have hinv : LoopInv s.trades (t :: ts) s.nextId := hl ▸ loopInv_of_wf hwf tk
    obtain ⟨a, b, _⟩ := sellLoop_wf price now (t :: ts) (d / price) s.trades s.nextId hinv
    exact ⟨a, b⟩

theorem sellShares_wf {s : FifoState} {tk : String} {price : ℚ} {q : Option ℚ}
    {now : Nat} {s' : FifoState} {out : SellOutcome} (hwf : Wf s)
    (h : sellShares s tk price q now = Except.ok (s', out)) : Wf s' := by
  unfold sellShares at h
  by_cases hp : price ≤ 0
  · rw [if_pos hp] at h
    cases h
  · rw [if_neg hp] at h
    cases q with
    | none => exact sellOldest_wf hwf h
    | some v =>
      simp only at h
      by_cases hv : v ≠ 0 ∧ v ≤ 0
      · rw [if_pos hv] at h
        cases h
      · rw [if_neg hv] at h
        by_cases hz : v = 0
        · rw [if_pos hz] at h
          exact sellOldest_wf hwf h
        · rw [if_neg hz] at h
          exact sellTarget_wf hwf h

theorem sellDollar_wf {s : FifoState} {tk : String} {price : ℚ} {amt : Option ℚ}
    {now : Nat} {s' : FifoState} {out : SellOutcome} (hwf : Wf s)
    (h : sellDollar s tk price amt now = Except.ok (s', out)) : Wf s' := by
  unfold sellDollar at h
  by_cases hp : price ≤ 0
  · rw [if_pos hp] at h
    cases h
  · rw [if_neg hp] at h
    cases amt with
    | none => exact sellOldest_wf hwf h
    | some d =>
      simp only at h
      by_cases hv : d ≠ 0 ∧ d ≤ 0
      · rw [if_pos hv] at h
        cases h
      · rw [if_neg hv] at h
        by_cases hz : d = 0
        · rw [if_pos hz] at h
          exact sellOldest_wf hwf h
        · rw [if_neg hz] at h
          exact sellTargetDollar_wf hwf h

/-- Every operation preserves well-formedness of the collection. -/
theorem wf_applyOp {s : FifoState} (hwf : Wf s) (op : Op) : Wf (applyOp s op) := by
  cases op with
  | buy tk p q now =>
    simp only [applyOp, buyShares]
    by_cases hval : p ≤ 0 ∨ q ≤ 0
    · rw [if_pos hval]; exact hwf
    · rw [if_neg hval]; exact wf_addTrade hwf tk p q now
  | buyD tk p a now =>
    simp only [applyOp, buyDollar]
    by_cases hval : p ≤ 0 ∨ a ≤ 0
    · rw [if_pos hval]; exact hwf
    · rw [if_neg hval]; exact wf_addTrade hwf tk p (a / p) now
  | sell tk p q now =>
    simp only [applyOp]
    rcases hres : sellShares s tk p q now with e | ⟨s', out⟩
    · exact hwf
    · exact sellShares_wf hwf hres
  | sellD tk p a now =>
    simp only [applyOp]
    rcases hres : sellDollar s tk p a now with e | ⟨s', out⟩
    · exact hwf
    · exact sellDollar_wf hwf hres

theorem dbQty_addTrade (s : FifoState) (tkb : String) (price qty : ℚ) (now : Nat)
    (tk : String) :
    dbQty tk (addTrade s tkb price qty now).trades =
      dbQty tk s.trades + (if tkb = tk then qty else 0) := by
  simp only [addTrade]
  rw [dbQty_eq_wsum, wsum_append, wsum_cons, wsum_nil, ← dbQty_eq_wsum]
  by_cases htk : tkb = tk
  · simp [tickerQty, htk]
  · simp [tickerQty, htk]

theorem dbQty_sellOldest {s : FifoState} {tk : String} {price : ℚ} {now : Nat}
    {s' : FifoState} {out : SellOutcome} (hwf : Wf s)
    (h : sellOldest s tk price now = Except.ok (s', out)) (tk' : String) :
    dbQty tk' s'.trades = dbQty tk' s.trades := by
  rcases hl : openTradesForTicker s tk with _ | ⟨t0, rest⟩
  · rw [sellOldest_empty hl] at h
    cases h
  · rw [sellOldest_eq hl] at h
    injection h with hpair
    have hs' := congrArg Prod.fst hpair
    simp only at hs'
    subst hs'
    have ht0 : t0 ∈ s.trades :=
      (mem_openTradesForTicker.mp (hl ▸ List.mem_cons_self t0 rest)).1
    show dbQty tk' (updateById s.trades (closeFull price now t0)) = dbQty tk' s.trades
    rw [dbQty_eq_wsum, dbQty_eq_wsum,
      @wsum_updateById (tickerQty tk') s.trades (closeFull price now t0) t0 hwf.1 ht0 rfl]
    have hsame : tickerQty tk' (closeFull price now t0) = tickerQty tk' t0 := by
      simp [tickerQty, closeFull]
    rw [hsame]
    ring

theorem dbQty_sellTarget {s : FifoState} {tk : String} {price v : ℚ} {now : Nat}
    {s' : FifoState} {out : SellOutcome} (hwf : Wf s)
    (h : sellTarget s tk price v now = Except.ok (s', out)) (tk' : String) :
    dbQty tk' s'.trades = dbQty tk' s.trades := by
  rcases hl : openTradesForTicker s tk with _ | ⟨t, ts⟩
  · rw [sellTarget_empty hl] at h
    cases h
  · rw [sellTarget_eq hl] at h
    injection h with hpair
    have hs' := congrArg Prod.fst hpair
    simp only at hs'
    subst hs'
    show dbQty tk' (sellLoop price now (t :: ts) v s.trades s.nextId).db =
      dbQty tk' s.trades
    exact sellLoop_dbQty tk' price now (t :: ts) v s.trades s.nextId
      (hl ▸ loopInv_of_wf hwf tk)

theorem dbQty_sellTargetDollar {s : FifoState} {tk : String} {price d : ℚ} {now : Nat}
    {s' : FifoState} {out : SellOutcome} (hwf : Wf s)
    (h : sellTargetDollar s tk price d now = Except.ok (s', out)) (tk' : String) :
    dbQty tk' s'.trades = dbQty tk' s.trades := by
  rcases hl : openTradesForTicker s tk with _ | ⟨t, ts⟩
  · rw [sellTargetDollar_empty hl] at h
    cases h
  · rw [sellTargetDollar_eq hl] at h
    injection h with hpair
    have hs' := congrArg Prod.fst hpair
    simp only at hs'
    subst hs'
    show dbQty tk' (sellLoop price now (t :: ts) (d / price) s.trades s.nextId).db =
      dbQty tk' s.trades
    exact sellLoop_dbQty tk' price now (t :: ts) (d / price) s.trades s.nextId
      (hl ▸ loopInv_of_wf hwf tk)

theorem dbQty_sellShares {s : FifoState} {tk : String} {price : ℚ} {q : Option ℚ}
    {now : Nat} {s' : FifoState} {out : SellOutcome} (hwf : Wf s)
    (h : sellShares s tk price q now = Except.ok (s', out)) (tk' : String) :
    dbQty tk' s'.trades = dbQty tk' s.trades := by
  unfold sellShares at h
  by_cases hp : price ≤ 0
  · rw [if_pos hp] at h
    cases h
  · rw [if_neg hp] at h
    cases q with
    | none => exact dbQty_sellOldest hwf h tk'
    | some v =>
      simp only at h
      by_cases hv : v ≠ 0 ∧ v ≤ 0
      · rw [if_pos hv] at h
        cases h
      · rw [if_neg hv] at h
        by_cases hz : v = 0
        · rw [if_pos hz] at h
          exact dbQty_sellOldest hwf h tk'
        · rw [if_neg hz] at h
          exact dbQty_sellTarget hwf h tk'

theorem dbQty_sellDollar {s : FifoState} {tk : String} {price : ℚ} {amt : Option ℚ}
    {now : Nat} {s' : FifoState} {out : SellOutcome} (hwf : Wf s)
    (h : sellDollar s tk price amt now = Except.ok (s', out)) (tk' : String) :
    dbQty tk' s'.trades = dbQty tk' s.trades := by
  unfold sellDollar at h
  by_cases hp : price ≤ 0
  · rw [if_pos hp] at h
    cases h
  · rw [if_neg hp] at h
    cases amt with
    | none => exact dbQty_sellOldest hwf h tk'
    | some d =>
      simp only at h
      by_cases hv : d ≠ 0 ∧ d ≤ 0
      · rw [if_pos hv] at h
        cases h
      · rw [if_neg hv] at h
        by_cases hz : d = 0
        · rw [if_pos hz] at h
          exact dbQty_sellOldest hwf h tk'
        · rw [if_neg hz] at h
          exact dbQty_sellTargetDollar hwf h tk'

/-- Each operation changes a ticker's total collection quantity by
exactly the quantity it buys; sells redistribute but never change it. -/
theorem dbQty_applyOp {s : FifoState} (hwf : Wf s) (op : Op) (tk : String) :
    dbQty tk (applyOp s op).trades = dbQty tk s.trades + boughtQty tk op := by
  cases op with
  | buy tkb p q now =>
    simp only [applyOp, buyShares, boughtQty]
    by_cases hval : p ≤ 0 ∨ q ≤ 0
    · rw [if_pos hval]
      have hno : ¬(tkb = tk ∧ 0 < p ∧ 0 < q) := by
        rintro ⟨-, hp, hq⟩
        rcases hval with hv | hv
        · exact absurd hp (not_lt.mpr hv)
        · exact absurd hq (not_lt.mpr hv)
      rw [if_neg hno, add_zero]
    · rw [if_neg hval, dbQty_addTrade]
      push_neg at hval
      by_cases htk : tkb = tk
      · rw [if_pos htk, if_pos ⟨htk, hval.1, hval.2⟩]
      · rw [if_neg htk, if_neg fun hcon => htk hcon.1]
  | buyD tkb p a now =>
    simp only [applyOp, buyDollar, boughtQty]
    by_cases hval : p ≤ 0 ∨ a ≤ 0
    · rw [if_pos hval]
      have hno : ¬(tkb = tk ∧ 0 < p ∧ 0 < a) := by
        rintro ⟨-, hp, hq⟩
        rcases hval with hv | hv
        · exact absurd hp (not_lt.mpr hv)
        · exact absurd hq (not_lt.mpr hv)
      rw [if_neg hno, add_zero]
    · rw [if_neg hval, dbQty_addTrade]
      push_neg at hval
      by_cases htk : tkb = tk
      · rw [if_pos htk, if_pos ⟨htk, hval.1, hval.2⟩]
      · rw [if_neg htk, if_neg fun hcon => htk hcon.1]
  | sell tkb p q now =>
    simp only [applyOp, boughtQty]
    rcases hres : sellShares s tkb p q now with e | ⟨s', out⟩
    · rw [add_zero]
    · rw [add_zero]
      exact dbQty_sellShares hwf hres tk
  | sellD tkb p a now =>
    simp only [applyOp, boughtQty]
    rcases hres : sellDollar s tkb p a now with e | ⟨s', out⟩
    · rw [add_zero]
    · rw [add_zero]
      exact dbQty_sellDollar hwf hres tk

/-- Conservation over a run: a ticker's total collection quantity is
its initial total plus everything bought. -/
theorem runOps_dbQty (tk : String) :
    ∀ (ops : List Op) (s : FifoState), Wf s →
    dbQty tk (runOps s ops).trades = dbQty tk s.trades + boughtTotal tk ops := by
  intro ops
  induction ops with
  | nil =>
    intro s _
    simp [runOps, boughtTotal]
  | cons op ops ih =>
    intro s hwf
    have hstep : runOps s (op :: ops) = runOps (applyOp s op) ops := rfl
    rw [hstep, ih (applyOp s op) (wf_applyOp hwf op), dbQty_applyOp hwf op tk]
    simp only [boughtTotal, List.map_cons, List.sum_cons]
    ring

theorem wf_empty : Wf ⟨[], 0⟩ :=
  ⟨List.nodup_nil, fun t ht => absurd ht (List.not_mem_nil t)⟩

@[simp]
theorem closed_eq_isOpen_iff : (TradeStatus.closed = TradeStatus.isOpen) ↔ False :=
  ⟨fun h => TradeStatus.noConfusion h, False.elim⟩

@[simp]
theorem isOpen_eq_closed_iff : (TradeStatus.isOpen = TradeStatus.closed) ↔ False :=
  ⟨fun h => TradeStatus.noConfusion h, False.elim⟩

theorem openQty_add_closedQty (tk : String) (t : Trade) :
    openQty tk t + closedQty tk t = tickerQty tk t := by
  unfold openQty closedQty tickerQty
  by_cases h1 : t.ticker = tk
  · cases hst : t.status with
    | isOpen => simp [h1, hst]
    | closed => simp [h1, hst]
  · simp [h1]

theorem totalOpen_add_totalClosed (s : FifoState) (tk : String) :
    totalOpenQty s tk + totalClosedQty s tk = dbQty tk s.trades := by
  have key : ∀ db : List Trade,
      wsum (openQty tk) db + wsum (closedQty tk) db = wsum (tickerQty tk) db := by
    intro db
    induction db with
    | nil => simp [wsum_nil]
    | cons x xs ih =>
      rw [wsum_cons, wsum_cons, wsum_cons, ← openQty_add_closedQty tk x]
      linarith
  exact key s.trades

theorem openQty_filter_sum (tk : String) : ∀ db : List Trade,
    (db.map (openQty tk)).sum =
      ((db.filter fun t =>
        t.ticker == tk && t.status == TradeStatus.isOpen).map Trade.quantity).sum := by
  intro db
  induction db with
  | nil => rfl
  | cons x xs ih =>
    by_cases hp : x.ticker = tk ∧ x.status = TradeStatus.isOpen
    · have hb : (x.ticker == tk && (x.status == TradeStatus.isOpen)) = true := by
        simp [hp.1, hp.2]
      rw [List.map_cons, List.sum_cons, List.filter_cons, if_pos hb,
        List.map_cons, List.sum_cons, ih]
      have hopen : openQty tk x = x.quantity := by simp [openQty, hp]
      rw [hopen]
    · have hb : ¬ (x.ticker == tk && (x.status == TradeStatus.isOpen)) = true := by
        rcases not_and_or.mp hp with h | h <;> simp [h]
      rw [List.map_cons, List.sum_cons, List.filter_cons, if_neg hb, ih]
      have hzero : openQty tk x = 0 := by simp [openQty, hp]
      rw [hzero, zero_add]

/-- The ticker's open quantity is the total over the open-trades
query. -/
theorem totalOpenQty_eq (s : FifoState) (tk : String) :
    totalOpenQty s tk = ((openTradesForTicker s tk).map Trade.quantity).sum := by
  have hsum := ((sortByDate_perm (s.trades.filter fun t =>
      t.ticker == tk && t.status == TradeStatus.isOpen)).map Trade.quantity).sum_eq
  unfold totalOpenQty openTradesForTicker
  rw [hsum, openQty_filter_sum tk s.trades]

/-- A closed document is untouched by a single operation and stays the
unique document with its id. -/
theorem closed_frame_op {s : FifoState} {x : Trade} (hwf : Wf s)
    (hx : x ∈ s.trades) (hclosed : x.status = TradeStatus.closed) (op : Op) :
    x ∈ (applyOp s op).trades ∧
      ∀ y ∈ (applyOp s op).trades, y.id = x.id → y = x := by
  have huniq : ∀ y ∈ s.trades, y.id = x.id → y = x :=
    fun y hy hyid => id_inj_of_nodup hwf.1 hy hx hyid
  have hnotopen : ∀ tk, x.id ∉ (openTradesForTicker s tk).map Trade.id := by
    intro tk hmem
    rcases List.mem_map.mp hmem with ⟨z, hz, hzid⟩
    obtain ⟨hz', -, hzopen⟩ := mem_openTradesForTicker.mp hz
    have hzx : z = x := id_inj_of_nodup hwf.1 hz' hx hzid
    rw [hzx, hclosed] at hzopen
    cases hzopen
  have haddOK : ∀ tkb price qty now,
      x ∈ (addTrade s tkb price qty now).trades ∧
      ∀ y ∈ (addTrade s tkb price qty now).trades, y.id = x.id → y = x := by
    intro tkb price qty now
    constructor
    · exact List.mem_append_left _ hx
    · intro y hy hyid
      rcases List.mem_append.mp hy with hdb | hnew
      · exact huniq y hdb hyid
      · simp only [addTrade, List.mem_singleton] at hnew
        subst hnew
        have : s.nextId = x.id := hyid
        exact absurd (this ▸ hwf.2 x hx) (lt_irrefl _)
  have hOldest : ∀ tkb price now s' out,
      sellOldest s tkb price now = Except.ok (s', out) →
      x ∈ s'.trades ∧ ∀ y ∈ s'.trades, y.id = x.id → y = x := by
    intro tkb price now s' out h
    rcases hl : openTradesForTicker s tkb with _ | ⟨t0, rest⟩
    · rw [sellOldest_empty hl] at h
      cases h
    · rw [sellOldest_eq hl] at h
      injection h with hpair
      have hs' := congrArg Prod.fst hpair
      simp only at hs'
      subst hs'
      have hxt0 : x.id ≠ t0.id := by
        intro hc
        refine hnotopen tkb ?_
        rw [hl, List.map_cons, hc]
        exact List.mem_cons_self _ _
      refine ⟨mem_updateById_of_ne hx hxt0, ?_⟩
      intro y hy hyid
      rcases of_mem_updateById hy with rfl | ⟨hy', _⟩
      · exact absurd hyid.symm hxt0
      · exact huniq y hy' hyid
  have hTarget : ∀ tkb price v now s' out,
      sellTarget s tkb price v now = Except.ok (s', out) →
      x ∈ s'.trades ∧ ∀ y ∈ s'.trades, y.id = x.id → y = x := by
    intro tkb price v now s' out h
    rcases hl : openTradesForTicker s tkb with _ | ⟨t, ts⟩
    · rw [sellTarget_empty hl] at h
      cases h
    · rw [sellTarget_eq hl] at h
      injection h with hpair
      have hs' := congrArg Prod.fst hpair
      simp only at hs'
      subst hs'
      exact sellLoop_frame price now (t :: ts) v s.trades s.nextId x
        (hl ▸ loopInv_of_wf hwf tkb) hx (hl ▸ hnotopen tkb) huniq
  have hTargetD : ∀ tkb price d now s' out,
      sellTargetDollar s tkb price d now = Except.ok (s', out) →
      x ∈ s'.trades ∧ ∀ y ∈ s'.trades, y.id = x.id → y = x := by
    intro tkb price d now s' out h
    rcases hl : openTradesForTicker s tkb with _ | ⟨t, ts⟩
    · rw [sellTargetDollar_empty hl] at h
      cases h
    · rw [sellTargetDollar_eq hl] at h
      injection h with hpair
      have hs' := congrArg Prod.fst hpair
      simp only at hs'
      subst hs'
      exact sellLoop_frame price now (t :: ts) (d / price) s.trades s.nextId x
        (hl ▸ loopInv_of_wf hwf tkb) hx (hl ▸ hnotopen tkb) huniq
  cases op with
  | buy tkb p q now =>
    simp only [applyOp, buyShares]
    by_cases hval : p ≤ 0 ∨ q ≤ 0
    · rw [if_pos hval]
      exact ⟨hx, huniq⟩
    · rw [if_neg hval]
      exact haddOK tkb p q now
  | buyD tkb p a now =>
    simp only [applyOp, buyDollar]
    by_cases hval : p ≤ 0 ∨ a ≤ 0
    · rw [if_pos hval]
      exact ⟨hx, huniq⟩
    · rw [if_neg hval]
      exact haddOK tkb p (a / p) now
  | sell tkb p q now =>
    simp only [applyOp]
    rcases hres : sellShares s tkb p q now with e | ⟨s', out⟩
    · exact ⟨hx, huniq⟩
    · unfold sellShares at hres
      by_cases hp : p ≤ 0
      · rw [if_pos hp] at hres
        cases hres
      · rw [if_neg hp] at hres
        cases q with
        | none => exact hOldest tkb p now s' out hres
        | some v =>
          simp only at hres
          by_cases hv : v ≠ 0 ∧ v ≤ 0
          · rw [if_pos hv] at hres
            cases hres
          · rw [if_neg hv] at hres
            by_cases hz : v = 0
            · rw [if_pos hz] at hres
              exact hOldest tkb p now s' out hres
            · rw [if_neg hz] at hres
              exact hTarget tkb p v now s' out hres
  | sellD tkb p a now =>
    simp only [applyOp]
    rcases hres : sellDollar s tkb p a now with e | ⟨s', out⟩
    · exact ⟨hx, huniq⟩
    · unfold sellDollar at hres
      by_cases hp : p ≤ 0
      · rw [if_pos hp] at hres
        cases hres
      · rw [if_neg hp] at hres
        cases a with
        | none => exact hOldest tkb p now s' out hres
        | some d =>
          simp only at hres
          by_cases hv : d ≠ 0 ∧ d ≤ 0
          · rw [if_pos hv] at hres
            cases hres
          · rw [if_neg hv] at hres
            by_cases hz : d = 0
            · rw [if_pos hz] at hres
              exact hOldest tkb p now s' out hres
            · rw [if_neg hz] at hres
              exact hTargetD tkb p d now s' out hres

/-- A closed document persists unchanged through any run of
operations. -/
theorem closed_persists : ∀ (ops : List Op) (s : FifoState) (x : Trade),
    Wf s → x ∈ s.trades → x.status = TradeStatus.closed →
    x ∈ (runOps s ops).trades ∧
      ∀ y ∈ (runOps s ops).trades, y.id = x.id → y = x := by
  intro ops
  induction ops with
  | nil =>
    intro s x hwf hx _
    exact ⟨hx, fun y hy hyid => id_inj_of_nodup hwf.1 hy hx hyid⟩
  | cons op ops ih =>
    intro s x hwf hx hclosed
    have hstep := closed_frame_op hwf hx hclosed op
    exact ih (applyOp s op) x (wf_applyOp hwf op) hstep.1 hclosed

/-- C1: every sell walks the ticker's open lots sorted by buy date
ascending; the attributions pair off an initial segment of that sorted
list in order, and whenever a later attribution consumed anything, every
earlier attribution consumed its whole lot — so a later-bought lot is
never decremented while an earlier-bought lot still has open
quantity. -/
theorem claim1_fifo_order (s : FifoState) (tk : String) (price v : ℚ) (now : Nat)
    (s' : FifoState) (out : SellOutcome)
    (h : sellShares s tk price (some v) now = Except.ok (s', out)) :
    List.Pairwise (fun a b => a.buy_date ≤ b.buy_date) (openTradesForTicker s tk) ∧
    (∃ rest, openTradesForTicker s tk = out.attrs.map Prod.fst ++ rest) ∧
    ∀ (i j : Nat) (hi : i < out.attrs.length) (hj : j < out.attrs.length),
      i < j → 0 < (out.attrs.get ⟨j, hj⟩).2 →
      (out.attrs.get ⟨i, hi⟩).2 = (out.attrs.get ⟨i, hi⟩).1.quantity := by
  have hpw : List.Pairwise (fun a b => a.buy_date ≤ b.buy_date)
      (openTradesForTicker s tk) := sortByDate_pairwise _
  unfold sellShares at h
  by_cases hp : price ≤ 0
  · rw [if_pos hp] at h
    cases h
  · rw [if_neg hp] at h
    simp only at h
    by_cases hv : v ≠ 0 ∧ v ≤ 0
    · rw [if_pos hv] at h
      cases h
    · rw [if_neg hv] at h
      by_cases hz : v = 0
      · rw [if_pos hz] at h
        rcases hl : openTradesForTicker s tk with _ | ⟨t0, rest0⟩
        · rw [sellOldest_empty hl] at h
          cases h
        · rw [sellOldest_eq hl] at h
          injection h with hpair
          have hout := congrArg Prod.snd hpair
          simp only at hout
          subst hout
          refine ⟨hl ▸ hpw, ⟨rest0, rfl⟩, ?_⟩
          intro i j hi hj hij hposj
          have hi' : i < 1 := hi
          have hj' : j < 1 := hj
          omega
      · rw [if_neg hz] at h
        rcases hl : openTradesForTicker s tk with _ | ⟨t, ts⟩
        · rw [sellTarget_empty hl] at h
          cases h
        · rw [sellTarget_eq hl] at h
          injection h with hpair
          have hout := congrArg Prod.snd hpair
          simp only at hout
          subst hout
          refine ⟨hl ▸ hpw, ?_, ?_⟩
          · obtain ⟨rest, hrest⟩ :=
              sellLoop_attrs_decomp price now (t :: ts) v s.trades s.nextId
            exact ⟨rest, hrest⟩
          · intro i j hi hj hij hposj
            have hfbl := sellLoop_fullButLast price now (t :: ts) v s.trades s.nextId
            have hj' : j <
                (sellLoop price now (t :: ts) v s.trades s.nextId).attrs.length := hj
            have hi1 : i + 1 <
                (sellLoop price now (t :: ts) v s.trades s.nextId).attrs.length := by
              omega
            exact fullButLast_get _ hfbl i hi1

/-- Witness for C1 at the two-lot AAPL ledger with a 15-share sell. -/
theorem claim1_fifo_order_witness :
    (sellShares exState "AAPL" 120 (some 15) 3 = Except.ok (exState', exOut)) ∧
    (List.Pairwise (fun a b => a.buy_date ≤ b.buy_date)
        (openTradesForTicker exState "AAPL") ∧
     (∃ rest, openTradesForTicker exState "AAPL" = exOut.attrs.map Prod.fst ++ rest) ∧
     ∀ (i j : Nat) (hi : i < exOut.attrs.length) (hj : j < exOut.attrs.length),
       i < j → 0 < (exOut.attrs.get ⟨j, hj⟩).2 →
       (exOut.attrs.get ⟨i, hi⟩).2 = (exOut.attrs.get ⟨i, hi⟩).1.quantity) :=
  ⟨by
    norm_num [sellShares, sellOldest, sellTarget, openTradesForTicker, sortByDate,
      insertByDate, sellLoop, updateById, closeFull, closeSplit, mkRemainder, rmin,
      exState, exState', exOut, lotA, lotB, List.filter],
   claim1_fifo_order exState "AAPL" 120 15 3 exState' exOut (by
    norm_num [sellShares, sellOldest, sellTarget, openTradesForTicker, sortByDate,
      insertByDate, sellLoop, updateById, closeFull, closeSplit, mkRemainder, rmin,
      exState, exState', exOut, lotA, lotB, List.filter])⟩

/-- C4: the sell operation computes each attribution's profit as
`(sellPrice - buyPrice) * consumed` and sums them (the 10@100/10@110
buy, 15@120 sell scenario yields 200 + 50 = 250, closes the first lot
and leaves 5 shares of the second open), but the stored `profit`
virtual of the Trade model reports only `sell_price - buy_price` (20,
not 200) for the closed attribution document, ignoring its quantity. -/
theorem claim4_profit_virtual_bug :
    sellShares exState "AAPL" 120 (some 15) 3 = Except.ok (exState', exOut) ∧
    exOut.attrs.map (fun p => (p.2, (120 - p.1.buy_price) * p.2)) =
      [(10, 200), (5, 50)] ∧
    exOut.totalProfit = 200 + 50 ∧
    (⟨0, "AAPL", 100, 10, 1, some 120, some 3, TradeStatus.closed⟩ : Trade) ∈
      exState'.trades ∧
    (⟨2, "AAPL", 110, 5, 2, none, none, TradeStatus.isOpen⟩ : Trade) ∈
      exState'.trades ∧
    totalOpenQty exState' "AAPL" = 5 ∧
    profitVirtual ⟨0, "AAPL", 100, 10, 1, some 120, some 3, TradeStatus.closed⟩ =
      some 20 := by
  norm_num [sellShares, sellOldest, sellTarget, openTradesForTicker, sortByDate,
    insertByDate, sellLoop, updateById, closeFull, closeSplit, mkRemainder, rmin,
    exState, exState', exOut, lotA, lotB, List.filter, totalOpenQty, openQty,
    profitVirtual]

/-- C5: after any finite run from the empty ledger, for every ticker
the open quantity plus all attributed (closed) quantity equals the
bought quantity — exactly, hence within any floating tolerance. -/
theorem claim5_conservation (ops : List Op) (tk : String) :
    totalOpenQty (runOps ⟨[], 0⟩ ops) tk + totalClosedQty (runOps ⟨[], 0⟩ ops) tk =
      boughtTotal tk ops := by
  rw [totalOpen_add_totalClosed]
  rw [runOps_dbQty tk ops ⟨[], 0⟩ wf_empty]
  show (0 : ℚ) + boughtTotal tk ops = boughtTotal tk ops
  rw [zero_add]

/-- C6: a closed document is never selected by the open-trades query,
and survives any run of operations as the unchanged, unique document
with its id: its quantity never grows, it accepts no further sell
fields, and it never leaves the closed state. -/
theorem claim6_closed_immutable (s : FifoState) (x : Trade) (ops : List Op)
    (hwf : Wf s) (hx : x ∈ s.trades) (hclosed : x.status = TradeStatus.closed) :
    (∀ tk, x ∉ openTradesForTicker s tk) ∧
    x ∈ (runOps s ops).trades ∧
    ∀ y ∈ (runOps s ops).trades, y.id = x.id → y = x := by
  refine ⟨?_, (closed_persists ops s x hwf hx hclosed).1,
    (closed_persists ops s x hwf hx hclosed).2⟩
  intro tk hmem
  have hopen := (mem_openTradesForTicker.mp hmem).2.2
  rw [hclosed] at hopen
  cases hopen

/-- Witness for C6 at a ledger with one closed and one open document,
running a buy and a sell. -/
theorem claim6_closed_immutable_witness :
    (Wf mixedState ∧ closedDoc ∈ mixedState.trades ∧
     closedDoc.status = TradeStatus.closed) ∧
    ((∀ tk, closedDoc ∉ openTradesForTicker mixedState tk) ∧
     closedDoc ∈ (runOps mixedState
       [Op.buy "AAPL" 50 3 4, Op.sell "AAPL" 130 (some 8) 5]).trades ∧
     ∀ y ∈ (runOps mixedState
       [Op.buy "AAPL" 50 3 4, Op.sell "AAPL" 130 (some 8) 5]).trades,
       y.id = closedDoc.id → y = closedDoc) :=
  ⟨⟨by decide, by decide, by decide⟩,
   claim6_closed_immutable mixedState closedDoc
     [Op.buy "AAPL" 50 3 4, Op.sell "AAPL" 130 (some 8) 5]
     (by decide) (by decide) (by decide)⟩

/-- C7: a sell on a ticker with no open documents fails with
`NoOpenPosition` and leaves the ledger unchanged, in the FIFO variant
and (for a record with no holdings) in the weighted-average variant. -/
theorem claim7_no_open_position (s : FifoState) (tk : String) (price : ℚ)
    (q : Option ℚ) (now : Nat) (tA : AvgTrade) (amt : Option ℚ)
    (hp : 0 < price) (hq : ∀ v ∈ q, 0 < v) (hl : openTradesForTicker s tk = [])
    (hts : tA.total_shares = 0) (hamt : ∀ d ∈ amt, 0 < d) :
    sellShares s tk price q now = Except.error SellError.NoOpenPosition ∧
    applyOp s (Op.sell tk price q now) = s ∧
    avgSell tA price amt now = Except.error SellError.NoOpenPosition := by
  have hmain : sellShares s tk price q now = Except.error SellError.NoOpenPosition := by
    unfold sellShares
    rw [if_neg (not_le.mpr hp)]
    cases q with
    | none => exact sellOldest_empty hl
    | some v =>
      have hv : 0 < v := hq v rfl
      simp only
      rw [if_neg (fun hcon => absurd hv (not_lt.mpr hcon.2)), if_neg (ne_of_gt hv)]
      exact sellTarget_empty hl
  refine ⟨hmain, ?_, ?_⟩
  · simp only [applyOp]
    rw [hmain]
  · unfold avgSell
    rw [if_neg (not_le.mpr hp)]
    cases amt with
    | none =>
      simp only
      rw [if_pos hts]
    | some d =>
      have hd : 0 < d := hamt d rfl
      simp only
      rw [if_neg (fun hcon => absurd hd (not_lt.mpr hcon.2)), if_pos hts]

/-- Witness for C7 at the empty ledger and an empty weighted-average
record. -/
theorem claim7_no_open_position_witness :
    ((0 : ℚ) < 10 ∧ openTradesForTicker ⟨[], 0⟩ "AAPL" = [] ∧
      zeroAvg.total_shares = 0) ∧
    (sellShares ⟨[], 0⟩ "AAPL" 10 (some 5) 1 = Except.error SellError.NoOpenPosition ∧
     applyOp ⟨[], 0⟩ (Op.sell "AAPL" 10 (some 5) 1) = ⟨[], 0⟩ ∧
     avgSell zeroAvg 10 (some 3) 1 = Except.error SellError.NoOpenPosition) :=
  ⟨⟨by decide, by decide, by decide⟩,
   claim7_no_open_position ⟨[], 0⟩ "AAPL" 10 (some 5) 1 zeroAvg (some 3)
     (by decide) (by norm_num) (by decide) (by decide) (by norm_num)⟩

/-- C9: whenever a sell partially consumes a lot `(t, c)` with
`c ≠ t.quantity`, the final ledger holds the original document closed
with its quantity overwritten to `c`, and a fresh open remainder with
the same ticker, buy price and buy date carrying the rest — so the
remainder keeps its cost basis and its FIFO position. -/
theorem claim9_partial_split (s : FifoState) (tk : String) (price v : ℚ)
    (now : Nat) (s' : FifoState) (out : SellOutcome) (hwf : Wf s)
    (h : sellShares s tk price (some v) now = Except.ok (s', out)) :
    ∀ p ∈ out.attrs, p.2 ≠ p.1.quantity →
      closeSplit price now p.2 p.1 ∈ s'.trades ∧
      ∃ u ∈ s'.trades, u.ticker = p.1.ticker ∧ u.buy_price = p.1.buy_price ∧
        u.buy_date = p.1.buy_date ∧ u.quantity = p.1.quantity - p.2 ∧
        u.status = TradeStatus.isOpen ∧ u.sell_price = none := by
  unfold sellShares at h
  by_cases hp : price ≤ 0
  · rw [if_pos hp] at h
    cases h
  · rw [if_neg hp] at h
    simp only at h
    by_cases hv0 : v ≠ 0 ∧ v ≤ 0
    · rw [if_pos hv0] at h
      cases h
    · rw [if_neg hv0] at h
      by_cases hz : v = 0
      · rw [if_pos hz] at h
        rcases hl : openTradesForTicker s tk with _ | ⟨t0, rest0⟩
        · rw [sellOldest_empty hl] at h
          cases h
        · rw [sellOldest_eq hl] at h
          injection h with hpair
          have hout := congrArg Prod.snd hpair
          simp only at hout
          subst hout
          intro p hp' hne
          simp only [List.mem_singleton] at hp'
          subst hp'
          exact absurd rfl hne
      · rw [if_neg hz] at h
        rcases hl : openTradesForTicker s tk with _ | ⟨t, ts⟩
        · rw [sellTarget_empty hl] at h
          cases h
        · rw [sellTarget_eq hl] at h
          injection h with hpair
          have hs'eq := congrArg Prod.fst hpair
          have houteq := congrArg Prod.snd hpair
          simp only at hs'eq houteq
          subst hs'eq
          subst houteq
          intro p hp' hne
          exact sellLoop_split price now (t :: ts) v s.trades s.nextId
            (hl ▸ loopInv_of_wf hwf tk) p hp' hne

/-- Witness for C9 at the two-lot AAPL ledger: the 15-share sell splits
the second lot (consumed 5 of 10). -/
theorem claim9_partial_split_witness :
    (Wf exState ∧
     sellShares exState "AAPL" 120 (some 15) 3 = Except.ok (exState', exOut)) ∧
    (∀ p ∈ exOut.attrs, p.2 ≠ p.1.quantity →
      closeSplit 120 3 p.2 p.1 ∈ exState'.trades ∧
      ∃ u ∈ exState'.trades, u.ticker = p.1.ticker ∧ u.buy_price = p.1.buy_price ∧
        u.buy_date = p.1.buy_date ∧ u.quantity = p.1.quantity - p.2 ∧
        u.status = TradeStatus.isOpen ∧ u.sell_price = none) :=
  ⟨⟨by decide, by
    norm_num [sellShares, sellOldest, sellTarget, openTradesForTicker, sortByDate,
      insertByDate, sellLoop, updateById, closeFull, closeSplit, mkRemainder, rmin,
      exState, exState', exOut, lotA, lotB, List.filter]⟩,
   claim9_partial_split exState "AAPL" 120 15 3 exState' exOut (by decide) (by
    norm_num [sellShares, sellOldest, sellTarget, openTradesForTicker, sortByDate,
      insertByDate, sellLoop, updateById, closeFull, closeSplit, mkRemainder, rmin,
      exState, exState', exOut, lotA, lotB, List.filter])⟩

/-- C2 counterexample to the claim as stated: in the weighted-average
implementation a sell whose resolved share count (30 / 10 = 3) exceeds
the open quantity (2) is refused outright, not executed as a partial
fill. -/
theorem claim2_oversell_cex :
    remainingShares exAvg = 2 ∧ (30 : ℚ) / 10 = 3 ∧
    avgSell exAvg 10 (some 30) 7 = Except.error SellError.InsufficientShares := by
  norm_num [avgSell, avgSellCore, remainingShares, exAvg]

/-- C2 (amended): in the per-lot FIFO implementation, a sell requesting
more shares than the ticker's open quantity is a committed partial
fill: it succeeds, sells exactly the open quantity, reports the
shortfall `requested - sold`, and leaves zero open quantity. -/
theorem claim2_partial_fill (s : FifoState) (tk : String) (price v : ℚ)
    (now : Nat) (hwf : Wf s) (hne : openTradesForTicker s tk ≠ [])
    (hpos : ∀ x ∈ openTradesForTicker s tk, 0 < x.quantity)
    (hp : 0 < price) (hover : totalOpenQty s tk < v) :
    ∃ s' out, sellShares s tk price (some v) now = Except.ok (s', out) ∧
      out.sold = totalOpenQty s tk ∧
      out.shortfall = v - totalOpenQty s tk ∧ 0 < out.shortfall ∧
      totalOpenQty s' tk = 0 := by
  rcases hl : openTradesForTicker s tk with _ | ⟨t, ts⟩
  · exact absurd hl hne
  · have hsum : totalOpenQty s tk = (List.map Trade.quantity (t :: ts)).sum := by
      rw [totalOpenQty_eq, hl]
    have htpos : 0 < t.quantity := hpos t (by rw [hl]; exact List.mem_cons_self t ts)
    have htssum : 0 ≤ (ts.map Trade.quantity).sum :=
      qsum_nonneg fun x hx => hpos x (by rw [hl]; exact List.mem_cons_of_mem t hx)
    have hopos : 0 < totalOpenQty s tk := by
      rw [hsum]
      simp only [List.map_cons, List.sum_cons]
      linarith
    have hv : 0 < v := lt_trans hopos hover
    have hred : sellShares s tk price (some v) now = sellTarget s tk price v now := by
      unfold sellShares
      rw [if_neg (not_le.mpr hp)]
      simp only
      rw [if_neg (fun hcon => absurd hv (not_lt.mpr hcon.2)), if_neg (ne_of_gt hv)]
    have hle : (List.map Trade.quantity (t :: ts)).sum ≤ v := by
      rw [← hsum]
      exact le_of_lt hover
    obtain ⟨hrem, hopen⟩ := sellLoop_consumeAll price now (t :: ts) v s.trades s.nextId
      (hl ▸ loopInv_of_wf hwf tk) (fun x hx => hpos x (by rw [hl]; exact hx)) hle
    rw [hred, sellTarget_eq hl]
    refine ⟨_, _, rfl, ?_, ?_, ?_, ?_⟩
    · show v - (sellLoop price now (t :: ts) v s.trades s.nextId).remaining =
        totalOpenQty s tk
      rw [hrem, hsum]
      ring
    · show (sellLoop price now (t :: ts) v s.trades s.nextId).remaining =
        v - totalOpenQty s tk
      rw [hrem, hsum]
    · show 0 < (sellLoop price now (t :: ts) v s.trades s.nextId).remaining
      rw [hrem]
      rw [hsum] at hover
      linarith
    · show wsum (openQty tk) (sellLoop price now (t :: ts) v s.trades s.nextId).db = 0
      apply wsum_eq_zero
      intro x hx
      by_cases hxtk : x.ticker = tk ∧ x.status = TradeStatus.isOpen
      · obtain ⟨hxdb, hxid⟩ := hopen x hx hxtk.2
        have hxl : x ∈ openTradesForTicker s tk :=
          mem_openTradesForTicker.mpr ⟨hxdb, hxtk.1, hxtk.2⟩
        rw [hl] at hxl
        exact absurd (List.mem_map_of_mem Trade.id hxl) hxid
      · simp [openQty, hxtk]

/-- Witness for the amended C2 at the two-lot AAPL ledger (total open
20) with a 25-share sell. -/
theorem claim2_partial_fill_witness :
    (Wf exState ∧ openTradesForTicker exState "AAPL" ≠ [] ∧
     (∀ x ∈ openTradesForTicker exState "AAPL", 0 < x.quantity) ∧
     (0 : ℚ) < 120 ∧ totalOpenQty exState "AAPL" < 25) ∧
    (∃ s' out, sellShares exState "AAPL" 120 (some 25) 4 = Except.ok (s', out) ∧
      out.sold = totalOpenQty exState "AAPL" ∧
      out.shortfall = 25 - totalOpenQty exState "AAPL" ∧ 0 < out.shortfall ∧
      totalOpenQty s' "AAPL" = 0) :=
  ⟨⟨by decide, by decide, by decide, by decide,
    by norm_num [totalOpenQty, openQty, exState, lotA, lotB]⟩,
   claim2_partial_fill exState "AAPL" 120 25 4 (by decide) (by decide) (by decide)
     (by decide) (by norm_num [totalOpenQty, openQty, exState, lotA, lotB])⟩

/-- C3 counterexample to the claim as stated: with no size
specification, the FIFO sell closes only the oldest open lot; on a
ledger holding 20 open AAPL shares in two lots it leaves 10 shares
open instead of consuming all open lots down to zero. -/
theorem claim3_default_scope_cex :
    totalOpenQty exState "AAPL" = 20 ∧
    totalOpenQty (applyOp exState (Op.sell "AAPL" 120 none 5)) "AAPL" = 10 := by
  norm_num [applyOp, sellShares, sellOldest, openTradesForTicker, sortByDate,
    insertByDate, updateById, closeFull, exState, lotA, lotB, List.filter,
    totalOpenQty, openQty]

/-- C3 (amended): with no size specification, the per-lot FIFO sell
closes exactly the oldest open lot, leaving every other open lot of the
ticker untouched and open; the weighted-average implementation instead
sells the entire remaining position, leaving zero remaining shares. -/
theorem claim3_default_scope (s : FifoState) (tk : String) (price : ℚ)
    (now : Nat) (t0 : Trade) (rest : List Trade) (tA : AvgTrade)
    (hwf : Wf s) (hp : 0 < price)
    (hl : openTradesForTicker s tk = t0 :: rest)
    (hts : tA.total_shares ≠ 0) :
    (∃ out, sellShares s tk price none now =
        Except.ok ({ trades := updateById s.trades (closeFull price now t0),
                     nextId := s.nextId }, out) ∧
      out.sold = t0.quantity ∧ out.attrs = [(t0, t0.quantity)]) ∧
    (∀ x ∈ rest, x ∈ updateById s.trades (closeFull price now t0) ∧
      x.status = TradeStatus.isOpen) ∧
    (∃ tA' outA, avgSell tA price none now = Except.ok (tA', outA) ∧
      outA.sold = remainingShares tA ∧ remainingShares tA' = 0) := by
  refine ⟨?_, ?_, ?_⟩
  · have hred : sellShares s tk price none now = sellOldest s tk price now := by
      unfold sellShares
      rw [if_neg (not_le.mpr hp)]
    rw [hred, sellOldest_eq hl]
    exact ⟨_, rfl, rfl, rfl⟩
  · intro x hx
    have hxl : x ∈ openTradesForTicker s tk := by
      rw [hl]
      exact List.mem_cons_of_mem t0 hx
    obtain ⟨hxdb, -, hxopen⟩ := mem_openTradesForTicker.mp hxl
    have hnodup := @openTrades_id_nodup s tk hwf
    rw [hl] at hnodup
    simp only [List.map_cons, List.nodup_cons] at hnodup
    have hxid : x.id ≠ t0.id := by
      intro hc
      exact hnodup.1 (hc ▸ List.mem_map_of_mem Trade.id hx)
    exact ⟨mem_updateById_of_ne hxdb hxid, hxopen⟩
  · unfold avgSell
    rw [if_neg (not_le.mpr hp)]
    simp only
    rw [if_neg hts]
    unfold avgSellCore
    rw [if_neg (lt_irrefl (remainingShares tA))]
    refine ⟨_, _, rfl, rfl, ?_⟩
    show tA.total_shares -
      (tA.total_shares_sold + (tA.total_shares - tA.total_shares_sold)) = 0
    ring

/-- Witness for the amended C3 at the two-lot AAPL ledger and the
example weighted-average record. -/
theorem claim3_default_scope_witness :
    (Wf exState ∧ (0 : ℚ) < 120 ∧
     openTradesForTicker exState "AAPL" = lotA :: [lotB] ∧
     exAvg.total_shares ≠ 0) ∧
    ((∃ out, sellShares exState "AAPL" 120 none 5 =
        Except.ok ({ trades := updateById exState.trades (closeFull 120 5 lotA),
                     nextId := exState.nextId }, out) ∧
      out.sold = lotA.quantity ∧ out.attrs = [(lotA, lotA.quantity)]) ∧
     (∀ x ∈ [lotB], x ∈ updateById exState.trades (closeFull 120 5 lotA) ∧
       x.status = TradeStatus.isOpen) ∧
     (∃ tA' outA, avgSell exAvg 120 none 5 = Except.ok (tA', outA) ∧
       outA.sold = remainingShares exAvg ∧ remainingShares tA' = 0)) :=
  ⟨⟨by decide, by decide, by decide, by decide⟩,
   claim3_default_scope exState "AAPL" 120 5 lotA [lotB] exAvg
     (by decide) (by decide) (by decide) (by decide)⟩

/-- C8: a `DollarAmount(d)` size at price `p > 0` resolves to exactly
`d / p` shares — the dollar buy stores a lot of `amount / price` shares
and the dollar sell requests `d / p` shares before consumption; the
TSLA scenario (buy $100 at $50 → 2 shares; sell $150 at $75 → 2 shares
requested) fully fills with zero shortfall and profit $50. -/
theorem claim8_dollar_resolution (s : FifoState) (tk : String)
    (price amount : ℚ) (now : Nat) (s2 : FifoState) (tk2 : String)
    (price2 d : ℚ) (now2 : Nat) (s' : FifoState) (out : SellOutcome)
    (hp : 0 < price) (ha : 0 < amount) (hp2 : 0 < price2) (hd : 0 < d)
    (h : sellDollar s2 tk2 price2 (some d) now2 = Except.ok (s', out)) :
    (buyDollar s tk price amount now).trades =
      s.trades ++ [{ id := s.nextId, ticker := tk, buy_price := price,
                     quantity := amount / price, buy_date := now,
                     sell_price := none, sell_date := none,
                     status := TradeStatus.isOpen }] ∧
    out.requested = d / price2 ∧
    (sellDollar tslaState "TSLA" 75 (some 150) 2 = Except.ok (tslaState', tslaOut) ∧
     tslaOut.requested = 2 ∧ tslaOut.sold = 2 ∧ tslaOut.shortfall = 0 ∧
     tslaOut.totalProfit = (75 - 50) * 2 ∧ totalOpenQty tslaState' "TSLA" = 0) := by
  refine ⟨?_, ?_, ?_⟩
  · have hval : ¬(price ≤ 0 ∨ amount ≤ 0) := by
      push_neg
      exact ⟨hp, ha⟩
    unfold buyDollar
    rw [if_neg hval]
    rfl
  · unfold sellDollar at h
    rw [if_neg (not_le.mpr hp2)] at h
    simp only at h
    rw [if_neg (fun hcon => absurd hd (not_lt.mpr hcon.2)), if_neg (ne_of_gt hd)] at h
    rcases hl : openTradesForTicker s2 tk2 with _ | ⟨t, ts⟩
    · rw [sellTargetDollar_empty hl] at h
      cases h
    · rw [sellTargetDollar_eq hl] at h
      injection h with hpair
      have hout := congrArg Prod.snd hpair
      simp only at hout
      subst hout
      rfl
  · norm_num [sellDollar, sellTargetDollar, sellOldest, openTradesForTicker,
      sortByDate, insertByDate, sellLoop, updateById, closeFull, closeSplit,
      mkRemainder, rmin, buyDollar, addTrade, tslaState, tslaState', tslaOut,
      List.filter, totalOpenQty, openQty]

/-- Witness for C8: the dollar buy and the TSLA dollar sell at concrete
inputs. -/
theorem claim8_dollar_resolution_witness :
    ((0 : ℚ) < 50 ∧ (0 : ℚ) < 100 ∧ (0 : ℚ) < 75 ∧ (0 : ℚ) < 150 ∧
     sellDollar tslaState "TSLA" 75 (some 150) 2 = Except.ok (tslaState', tslaOut)) ∧
    ((buyDollar ⟨[], 0⟩ "TSLA" 50 100 1).trades =
      [] ++ [{ id := 0, ticker := "TSLA", buy_price := 50,
               quantity := 100 / 50, buy_date := 1, sell_price := none,
               sell_date := none, status := TradeStatus.isOpen }] ∧
     tslaOut.requested = 150 / 75 ∧
     (sellDollar tslaState "TSLA" 75 (some 150) 2 = Except.ok (tslaState', tslaOut) ∧
      tslaOut.requested = 2 ∧ tslaOut.sold = 2 ∧ tslaOut.shortfall = 0 ∧
      tslaOut.totalProfit = (75 - 50) * 2 ∧ totalOpenQty tslaState' "TSLA" = 0)) :=
  ⟨⟨by decide, by decide, by decide, by decide, by
    norm_num [sellDollar, sellTargetDollar, sellOldest, openTradesForTicker,
      sortByDate, insertByDate, sellLoop, updateById, closeFull, closeSplit,
      mkRemainder, rmin, buyDollar, addTrade, tslaState, tslaState', tslaOut,
      List.filter]⟩,
   claim8_dollar_resolution ⟨[], 0⟩ "TSLA" 50 100 1 tslaState "TSLA" 75 150 2
     tslaState' tslaOut (by decide) (by decide) (by decide) (by decide) (by
    norm_num [sellDollar, sellTargetDollar, sellOldest, openTradesForTicker,
      sortByDate, insertByDate, sellLoop, updateById, closeFull, closeSplit,
      mkRemainder, rmin, buyDollar, addTrade, tslaState, tslaState', tslaOut,
      List.filter])⟩

/-- C10: after any successful weighted-average buy, the record
satisfies `average_buy_price * total_shares = total_invested` (the
average is recomputed as invested over shares on each additional
purchase), and `remaining_shares` always equals
`total_shares - total_shares_sold`. -/
theorem claim10_avg_invariant (t : AvgTrade) (price amount : ℚ) (now : Nat)
    (hp : 0 < price) (ha : 0 < amount) (hts : 0 ≤ t.total_shares) :
    (avgBuy t price amount now).average_buy_price *
        (avgBuy t price amount now).total_shares =
      (avgBuy t price amount now).total_invested ∧
    ∀ u : AvgTrade, remainingShares u = u.total_shares - u.total_shares_sold := by
  refine ⟨?_, fun u => rfl⟩
  have hval : ¬(price ≤ 0 ∨ amount ≤ 0) := by
    push_neg
    exact ⟨hp, ha⟩
  unfold avgBuy
  rw [if_neg hval]
  by_cases h0 : t.total_shares = 0
  · rw [if_pos h0]
    show price * (amount / price) = amount
    rw [mul_comm, div_mul_cancel₀ amount (ne_of_gt hp)]
  · rw [if_neg h0]
    have hdiv : 0 < amount / price := div_pos ha hp
    have hts' : 0 < t.total_shares := lt_of_le_of_ne hts (Ne.symm h0)
    have hpos2 : (0 : ℚ) < t.total_shares + amount / price := by linarith
    show (t.total_invested + amount) / (t.total_shares + amount / price) *
        (t.total_shares + amount / price) = t.total_invested + amount
    rw [div_mul_cancel₀ _ (ne_of_gt hpos2)]

/-- Witness for C10: a $100 first purchase at $50 per share on an empty
record. -/
theorem claim10_avg_invariant_witness :
    ((0 : ℚ) < 50 ∧ (0 : ℚ) < 100 ∧ (0 : ℚ) ≤ zeroAvg.total_shares) ∧
    ((avgBuy zeroAvg 50 100 1).average_buy_price *
        (avgBuy zeroAvg 50 100 1).total_shares =
      (avgBuy zeroAvg 50 100 1).total_invested ∧
     ∀ u : AvgTrade, remainingShares u = u.total_shares - u.total_shares_sold) :=
  ⟨⟨by decide, by decide, by decide⟩,
   claim10_avg_invariant zeroAvg 50 100 1 (by decide) (by decide) (by decide)⟩

end Tradoor
